import Mathlib

/-!
Verification development for the michelin-grafos repository.

The repository contains two Python variants of a graph application:
`main-11.py` (labeled vertices, mirrored undirected edge storage, degree
computation, Eulerian and Hamiltonian checks) and `main (1).py`
(Kosaraju strongly connected components, condensation, topology
classifier).  Both share the same data model: a `tipo` code (3 means
undirected), a dict from vertex id to `Vertice`, and a dict from vertex
id to an insertion-ordered list of outgoing `Aresta` records.

Python dicts are modelled as association lists in insertion order with
dict semantics (update in place preserves position, fresh keys append at
the end).  Python sets used only for membership are modelled as lists
with membership queries.  Recursive and while-loop traversals are
modelled with an explicit fuel argument; every call that runs out of
fuel is a no-op on the state, every completed call mutates the state
exactly as the Python call does, and the fuel supplied is large enough
for all executions on well-formed graphs (each nested call marks a
previously unvisited vertex, so recursion depth is bounded by the
vertex count).  The structural theorems below are proved for every
fuel value, so none of them depends on the fuel bound.
-/

/-- Vertex record: id, label, metadata tuple (class `Vertice`). -/
structure Vertice where
  id : Int
  rotulo : String
  meta : List String
deriving DecidableEq

/-- Edge record: origin id, destination id, optional weight (class `Aresta`). -/
structure Aresta where
  origem : Int
  destino : Int
  peso : Option String
deriving DecidableEq

/-- Graph: kind code `tipo` (3 = undirected), vertex dict, adjacency dict
(class `Grafo` of both variants). -/
structure Grafo where
  tipo : Int
  vertices : List (Int × Vertice)
  adj : List (Int × List Aresta)
deriving DecidableEq

/-- Keys of a Python dict modelled as an association list. -/
def keysD {κ α : Type} (m : List (κ × α)) : List κ := m.map Prod.fst

/-- Lookup in a Python dict (first matching key; keys are unique in
every state the program builds). -/
def lookupD {κ α : Type} [DecidableEq κ] : List (κ × α) → κ → Option α
  | [], _ => none
  | p :: rest, k => if p.1 = k then some p.2 else lookupD rest k

/-- Python `del m[k]` / `m.pop(k, None)`: drop the entry for key `k`. -/
def eraseD {κ α : Type} [DecidableEq κ] (m : List (κ × α)) (k : κ) : List (κ × α) :=
  m.filter (fun p => p.1 ≠ k)

/-- Replace the value stored at key `k` in place (dict assignment to an
existing key keeps its position). -/
def updateD {κ α : Type} [DecidableEq κ] : List (κ × α) → κ → (α → α) → List (κ × α)
  | [], _, _ => []
  | p :: rest, k, f => if p.1 = k then (p.1, f p.2) :: rest else p :: updateD rest k f

/-- Python `m[k] = v` on a dict: update in place if the key exists,
otherwise append the new entry at the end. -/
def insertD {κ α : Type} [DecidableEq κ] (m : List (κ × α)) (k : κ) (v : α) : List (κ × α) :=
  if k ∈ keysD m then updateD m k (fun _ => v) else m ++ [(k, v)]

/-- Python `self.adj.setdefault(k, []).append(e)`. -/
def appendEdge (m : List (Int × List Aresta)) (k : Int) (e : Aresta) : List (Int × List Aresta) :=
  if k ∈ keysD m then updateD m k (fun l => l ++ [e]) else m ++ [(k, [e])]

/-- Python `self.adj.get(k, [])`. -/
def getAdj (g : Grafo) (k : Int) : List Aresta := (lookupD g.adj k).getD []

/-- Stored edges of an adjacency dict paired with the key they are
stored under, in Python iteration order (`for src in self.adj: for e in
self.adj[src]`). -/
def pairsOf (m : List (Int × List Aresta)) : List (Int × Aresta) :=
  (m.map (fun pr => pr.2.map (fun e => (pr.1, e)))).flatten

/-- All stored (key, edge) pairs of a graph. -/
def allPairs (g : Grafo) : List (Int × Aresta) := pairsOf g.adj

/-- `Grafo.lista_arestas`: concatenation of every adjacency list. -/
def lista_arestas (g : Grafo) : List Aresta := (g.adj.map Prod.snd).flatten

/-- `Grafo.adicionar_vertice` (main-11.py lines 44-50): fails if the id
is present, otherwise records the vertex and ensures an adjacency
entry. -/
def adicionar_vertice (g : Grafo) (id_ : Int) (rotulo : String) (meta : List String) :
    Bool × Grafo :=
  if id_ ∈ keysD g.vertices then (false, g)
  else
    let g1 : Grafo := { g with vertices := g.vertices ++ [(id_, ⟨id_, rotulo, meta⟩)] }
    let g2 : Grafo :=
      if id_ ∈ keysD g1.adj then g1 else { g1 with adj := g1.adj ++ [(id_, [])] }
    (true, g2)

/-- `Grafo.remover_vertice` (main-11.py lines 52-59): fails if absent,
otherwise deletes the vertex, its adjacency entry, and every edge whose
destination is the removed id. -/
def remover_vertice (g : Grafo) (id_ : Int) : Bool × Grafo :=
  if id_ ∈ keysD g.vertices then
    (true,
      { g with
        vertices := eraseD g.vertices id_
        adj := (eraseD g.adj id_).map
          (fun pr => (pr.1, pr.2.filter (fun e => e.destino ≠ id_))) })
  else (false, g)

/-- `Grafo.adicionar_aresta` (main-11.py lines 62-74): fails if an
endpoint is absent or an identical (destination, weight) edge is stored
under the origin; on success appends the edge and, for `tipo = 3`,
appends the mirror edge unless an identical mirror is already stored. -/
def adicionar_aresta (g : Grafo) (origem destino : Int) (peso : Option String) :
    Bool × Grafo :=
  if origem ∈ keysD g.vertices ∧ destino ∈ keysD g.vertices then
    if (getAdj g origem).any (fun e => e.destino = destino ∧ e.peso = peso) then (false, g)
    else
      let adj1 := appendEdge g.adj origem ⟨origem, destino, peso⟩
      let adj2 :=
        if g.tipo = 3 ∧
            ¬ (((lookupD adj1 destino).getD []).any
              (fun e => e.destino = origem ∧ e.peso = peso)) then
          appendEdge adj1 destino ⟨destino, origem, peso⟩
        else adj1
      (true, { g with adj := adj2 })
  else (false, g)

/-- `Grafo.remover_aresta` (main-11.py lines 76-83): fails if the origin
has no adjacency entry; otherwise drops every edge from origin to
destination (any weight) and, for `tipo = 3`, every mirror edge; the
success flag reports whether the origin's list shrank. -/
def remover_aresta (g : Grafo) (origem destino : Int) : Bool × Grafo :=
  if origem ∈ keysD g.adj then
    let original := ((lookupD g.adj origem).getD []).length
    let adj1 := updateD g.adj origem (fun l => l.filter (fun e => e.destino ≠ destino))
    let adj2 :=
      if g.tipo = 3 ∧ destino ∈ keysD adj1 then
        updateD adj1 destino (fun l => l.filter (fun e => e.destino ≠ origem))
      else adj1
    (decide (((lookupD adj2 origem).getD []).length < original), { g with adj := adj2 })
  else (false, g)

/-- Predicate used by `Grafo.calcular_graus` for one stored (key, edge)
pair: in the undirected case only pairs with `origem < destino` count,
once for each endpoint; in the directed case each pair counts for its
key. -/
def grausPred (tipo : Int) (x : Int) (pr : Int × Aresta) : Bool :=
  if tipo = 3 then decide (pr.1 < pr.2.destino) && (decide (pr.1 = x) || decide (pr.2.destino = x))
  else decide (pr.1 = x)

/-- `Grafo.calcular_graus` (main-11.py lines 121-133), read at one key.
The Python function builds a dict keyed by the vertices (absent ids are
modelled as 0); on a graph whose edges point at non-vertices the Python
code raises `KeyError`, which the well-formedness hypotheses of the
theorems below exclude. -/
def calcular_graus (g : Grafo) (x : Int) : Nat :=
  if x ∈ keysD g.vertices then (allPairs g).countP (grausPred g.tipo x) else 0

/-- Fuel bound for the stack-based connectivity loop: the stack receives
at most one initial push plus one push per stored (key, edge) pair. -/
def fuelC (g : Grafo) : Nat := (allPairs g).length + g.vertices.length + 2

/-- While-loop of `Grafo.conexo_nao_direcionado` (main-11.py lines
104-118): pop from the end of the Python list, skip visited ids, mark
and push the not-yet-visited destinations. -/
def conexoLoop (g : Grafo) : Nat → List Int → List Int → List Int
  | 0, vis, _ => vis
  | fuel + 1, vis, pilha =>
    match pilha.getLast? with
    | none => vis
    | some u =>
      let rest := pilha.dropLast
      if u ∈ vis then conexoLoop g fuel vis rest
      else
        let vis1 := u :: vis
        conexoLoop g fuel vis1
          (rest ++ ((getAdj g u).filter (fun e => e.destino ∉ vis1)).map Aresta.destino)

/-- `Grafo.conexo_nao_direcionado` of main-11.py: empty graph is
connected, otherwise depth-first search from the first vertex key and
compare the visit count with the vertex count. -/
def conexo_nao_direcionado (g : Grafo) : Bool :=
  match keysD g.vertices with
  | [] => true
  | v0 :: _ => (conexoLoop g (fuelC g) [] [v0]).length == g.vertices.length

/-- `Grafo.tem_ciclo_euleriano` (main-11.py lines 136-149): returns
`False` for any kind other than 3, `False` when disconnected, `False`
when some vertex has odd degree, else `True`. -/
def tem_ciclo_euleriano (g : Grafo) : Bool :=
  if g.tipo ≠ 3 then false
  else if !(conexo_nao_direcionado g) then false
  else if (keysD g.vertices).any (fun v => calcular_graus g v % 2 == 1) then false
  else true

/-- Dirac test of `Grafo.tem_ciclo_hamiltoniano`: every degree at least
`n / 2` (Python floor division `n//2`). -/
def diracHolds (g : Grafo) : Bool :=
  (keysD g.vertices).all (fun v => decide (g.vertices.length / 2 ≤ calcular_graus g v))

/-- Ore violation search of `Grafo.tem_ciclo_hamiltoniano` (main-11.py
lines 171-181): some index pair `i < j` of vertex keys that is
non-adjacent (checked in the forward direction only) with degree sum
below `n`. -/
def oreViol (g : Grafo) : Bool :=
  let ks := keysD g.vertices
  let n := ks.length
  (List.range n).any (fun i =>
    ((List.range n).drop (i + 1)).any (fun j =>
      let u := ks.getD i 0
      let v := ks.getD j 0
      (!((getAdj g u).any (fun e => e.destino == v))) &&
        decide (calcular_graus g u + calcular_graus g v < n)))

/-- `Grafo.tem_ciclo_hamiltoniano` (main-11.py lines 152-189): `False`
below 3 vertices, `False` for kinds other than 3, `True` when Dirac
holds, `False` when an Ore violation exists (the branch whose printed
text says the result could not be established), else `True` (Ore). -/
def tem_ciclo_hamiltoniano (g : Grafo) : Bool :=
  if g.vertices.length < 3 then false
  else if g.tipo ≠ 3 then false
  else if diracHolds g then true
  else if oreViol g then false
  else true

/-- Recursive depth-first search `dfs1` of
`Grafo.componentes_fortemente_conexas` (main (1).py lines 120-125):
mark the vertex, recurse into unvisited forward neighbours, append the
vertex to the finishing order on exit.  The state is (visitados,
ordem).  The fuel only bounds the recursion depth: a call with fuel 0
leaves the state untouched, and since every completed call marks a
previously unvisited vertex first, depth `sccFuel` is never reached on
well-formed graphs. -/
def dfs1 (g : Grafo) : Nat → Int → List Int × List Int → List Int × List Int
  | 0, _, st => st
  | fuel + 1, u, st =>
    let st1 := (getAdj g u).foldl
      (fun acc e => if e.destino ∈ acc.1 then acc else dfs1 g fuel e.destino acc)
      (u :: st.1, st.2)
    (st1.1, st1.2 ++ [u])

/-- Depth bound for the two Kosaraju searches: more than the number of
vertices plus stored edges, hence more than the number of ids a call
chain can mark. -/
def sccFuel (g : Grafo) : Nat := g.vertices.length + (allPairs g).length + 1

/-- First Kosaraju pass (main (1).py lines 127-129): run `dfs1` from
every unvisited vertex in dict order; returns (visitados, ordem). -/
def passada1 (g : Grafo) : List Int × List Int :=
  (keysD g.vertices).foldl
    (fun st v => if v ∈ st.1 then st else dfs1 g (sccFuel g) v st) ([], [])

/-- Transposed adjacency of a vertex (main (1).py lines 131-134): the
sources of all stored edges pointing at `u`, in iteration order.  The
Python code materialises the whole transposed dict keyed by the
vertices and raises `KeyError` when an edge destination is not a
vertex; the theorems below exclude that by well-formedness. -/
def trList (g : Grafo) (u : Int) : List Int :=
  (allPairs g).filterMap (fun pr => if pr.2.destino = u then some pr.1 else none)

/-- Recursive depth-first search `dfs2` over the transposed graph
(main (1).py lines 139-144): mark the vertex, append it to the current
component, recurse into unvisited transposed neighbours.  The state is
(visitados, comp). -/
def dfs2 (g : Grafo) : Nat → Int → List Int × List Int → List Int × List Int
  | 0, _, st => st
  | fuel + 1, u, st =>
    (trList g u).foldl
      (fun acc w => if w ∈ acc.1 then acc else dfs2 g fuel w acc)
      (u :: st.1, st.2 ++ [u])

/-- `Grafo.componentes_fortemente_conexas` (main (1).py lines 116-152):
pop the finishing order from the end (reverse order) and collect one
component per unvisited seed with `dfs2`. -/
def componentes_fortemente_conexas (g : Grafo) : List (List Int) :=
  ((passada1 g).2.reverse.foldl
    (fun acc v =>
      if v ∈ acc.1 then acc
      else
        let r := dfs2 g (sccFuel g) v (acc.1, [])
        (r.1, acc.2 ++ [r.2]))
    ([], [])).2

/-- Component index dict of `Grafo.grafo_reduzido` (main (1).py lines
156-159): `comp_de[v] = idx` for every vertex of every component, in
order, later assignments overwriting earlier ones. -/
def comp_de (comps : List (List Int)) : List (Int × Nat) :=
  comps.enum.foldl (fun m ic => ic.2.foldl (fun m2 x => insertD m2 x ic.1) m) []

/-- Python `reduzido.setdefault(cu, set()).add(cv)`: the set is modelled
as a duplicate-free list in insertion order. -/
def addToSet (r : List (Nat × List Nat)) (cu cv : Nat) : List (Nat × List Nat) :=
  if cu ∈ keysD r then updateD r cu (fun s => if cv ∈ s then s else s ++ [cv])
  else r ++ [(cu, [cv])]

/-- `Grafo.grafo_reduzido` (main (1).py lines 154-167): the SCC list
plus the condensation dict from component index to the set of distinct
successor component indices.  `comp_de` lookups on ids outside every
component would raise `KeyError` in Python; the `getD 0` default is
only reachable on graphs the theorems exclude by well-formedness. -/
def grafo_reduzido (g : Grafo) : List (List Int) × List (Nat × List Nat) :=
  let comps := componentes_fortemente_conexas g
  let cd := comp_de comps
  let red := (allPairs g).foldl
    (fun r pr =>
      let cu := (lookupD cd pr.1).getD 0
      let cv := (lookupD cd pr.2.destino).getD 0
      if cu ≠ cv then addToSet r cu cv else r) []
  (comps, red)

/-- `Grafo.categoria_direcionado` (main (1).py lines 169-181): `C0` for
no vertices or no edges, then `C3` when the single component covers all
vertices, then `C1` when a singleton component coexists with more than
one component, else `C2`. -/
def categoria_direcionado (g : Grafo) : String :=
  if g.vertices = [] then "C0"
  else if lista_arestas g = [] then "C0"
  else
    let comps := componentes_fortemente_conexas g
    if comps.length = 1 ∧ (comps.headD []).length = g.vertices.length then "C3"
    else if (comps.any (fun c => c.length == 1)) ∧ 1 < comps.length then "C1"
    else "C2"

/-- Well-formedness invariant of the model (spec section 3): unique
dict keys, the adjacency dict and the vertex dict share the same key
set, and every stored edge is keyed by its origin and points at an
existing vertex.  Every state reachable through the mutation
operations satisfies it. -/
def WF (g : Grafo) : Prop :=
  (keysD g.vertices).Nodup ∧ (keysD g.adj).Nodup ∧
  (∀ k ∈ keysD g.adj, k ∈ keysD g.vertices) ∧
  (∀ k ∈ keysD g.vertices, k ∈ keysD g.adj) ∧
  (∀ pr ∈ g.adj, ∀ e ∈ pr.2, e.origem = pr.1 ∧ e.destino ∈ keysD g.vertices)

instance (g : Grafo) : Decidable (WF g) := by
  unfold WF
  infer_instance


/-- Removal of one stored mirrored pair: the copy (u, v, w) stored under
u and the copy (v, u, w) stored under v.  Auxiliary notion used to state
that such a pair contributes exactly one degree unit to each endpoint. -/
def eraseMirrorPair (g : Grafo) (u v : Int) (w : Option String) : Grafo :=
  { g with
    adj := g.adj.map (fun pr =>
      (pr.1, pr.2.filter (fun e =>
        decide (¬((pr.1 = u ∧ e = Aresta.mk u v w) ∨ (pr.1 = v ∧ e = Aresta.mk v u w)))))) }

/-- Plain labelled vertex used by the concrete test graphs. -/
def vtx (i : Int) : Vertice := ⟨i, "v", []⟩

/-- Undirected graph with the single logical edge 1-2, stored in both
directions as `adicionar_aresta` builds it. -/
def par12 : Grafo :=
  ⟨3, [(1, vtx 1), (2, vtx 2)], [(1, [⟨1, 2, none⟩]), (2, [⟨2, 1, none⟩])]⟩

/-- Undirected path on five vertices (1-2-3-4-5), stored with both
mirror directions as `adicionar_aresta` builds it. -/
def path5 : Grafo :=
  ⟨3,
    [(1, vtx 1), (2, vtx 2), (3, vtx 3), (4, vtx 4), (5, vtx 5)],
    [(1, [⟨1, 2, none⟩]),
     (2, [⟨2, 1, none⟩, ⟨2, 3, none⟩]),
     (3, [⟨3, 2, none⟩, ⟨3, 4, none⟩]),
     (4, [⟨4, 3, none⟩, ⟨4, 5, none⟩]),
     (5, [⟨5, 4, none⟩])]⟩

/-- Undirected graph with two isolated vertices: too small for the
Hamiltonian analysis and disconnected for the Eulerian analysis. -/
def doisVerts : Grafo := ⟨3, [(1, vtx 1), (2, vtx 2)], [(1, []), (2, [])]⟩

/-- Directed 3-cycle 1→2→3→1. -/
def ciclo3 : Grafo :=
  ⟨0, [(1, vtx 1), (2, vtx 2), (3, vtx 3)],
    [(1, [⟨1, 2, none⟩]), (2, [⟨2, 3, none⟩]), (3, [⟨3, 1, none⟩])]⟩

/-- Empty graph. -/
def vazio : Grafo := ⟨0, [], []⟩

/-- Directed graph with the single edge 1→2: two components and one
condensation edge. -/
def seta12 : Grafo :=
  ⟨0, [(1, vtx 1), (2, vtx 2)], [(1, [⟨1, 2, none⟩]), (2, [])]⟩

/-- Directed graph (kind 0) with a single vertex. -/
def dirigido1 : Grafo := ⟨0, [(1, vtx 1)], [(1, [])]⟩

/-- Claim C1.  The spec requires the Hamiltonian heuristic to return a
distinct indeterminate outcome when neither Dirac's nor Ore's condition
holds, never the value used for a negative result.  On the undirected
path with five vertices neither condition holds, yet the code returns
the plain boolean `False` — exactly the value it returns for the
definitively negative too-small case — so the indeterminate outcome is
conflated with the negative one. -/
theorem ham_indeterminado_conflated :
    path5.tipo = 3 ∧ 3 ≤ path5.vertices.length ∧
    diracHolds path5 = false ∧ oreViol path5 = true ∧
    tem_ciclo_hamiltoniano path5 = false ∧
    tem_ciclo_hamiltoniano doisVerts = false := by
  decide

/-- Claim C2.  The spec requires the Eulerian checker to return a
definitive not-applicable outcome, distinct from `False`, on any graph
kind other than 3.  The code returns the plain boolean `False` for a
directed graph — the same value it returns for the disconnected
undirected graph, a genuine "no cycle" result — so the not-applicable
outcome is conflated with the negative one. -/
theorem euler_nao_aplicavel_conflated :
    dirigido1.tipo ≠ 3 ∧ tem_ciclo_euleriano dirigido1 = false ∧
    doisVerts.tipo = 3 ∧ conexo_nao_direcionado doisVerts = false ∧
    tem_ciclo_euleriano doisVerts = false := by
  decide

/-! ### Association-list (Python dict) lemmas -/

theorem lookupD_eq_none_iff {κ α : Type} [DecidableEq κ] (m : List (κ × α)) (k : κ) :
    lookupD m k = none ↔ k ∉ keysD m := by
  induction m with
  | nil => simp [lookupD, keysD]
  | cons p rest ih =>
    by_cases h : p.1 = k
    · simp [lookupD, h, keysD]
    · simp [lookupD, h, keysD, Ne.symm h]
      simpa [keysD] using ih

theorem lookupD_mem {κ α : Type} [DecidableEq κ] {m : List (κ × α)} {k : κ} {v : α}
    (h : lookupD m k = some v) : (k, v) ∈ m := by
  induction m with
  | nil => simp [lookupD] at h
  | cons p rest ih =>
    by_cases hp : p.1 = k
    · simp [lookupD, hp] at h
      cases p with
      | mk a b =>
        simp at hp h
        subst hp
        subst h
        exact List.mem_cons_self _ _
    · simp [lookupD, hp] at h
      exact List.mem_cons_of_mem _ (ih h)

theorem lookupD_isSome_of_mem {κ α : Type} [DecidableEq κ] {m : List (κ × α)} {k : κ}
    (h : k ∈ keysD m) : ∃ v, lookupD m k = some v := by
  cases hv : lookupD m k with
  | none => exact absurd h ((lookupD_eq_none_iff m k).mp hv)
  | some v => exact ⟨v, rfl⟩

theorem lookupD_updateD_self {κ α : Type} [DecidableEq κ] (m : List (κ × α)) (k : κ)
    (f : α → α) : lookupD (updateD m k f) k = (lookupD m k).map f := by
  induction m with
  | nil => simp [updateD, lookupD]
  | cons p rest ih =>
    by_cases hp : p.1 = k
    · simp [updateD, lookupD, hp]
    · simp [updateD, lookupD, hp, ih]

theorem lookupD_updateD_ne {κ α : Type} [DecidableEq κ] (m : List (κ × α)) {k k' : κ}
    (f : α → α) (h : k' ≠ k) : lookupD (updateD m k f) k' = lookupD m k' := by
  induction m with
  | nil => simp [updateD, lookupD]
  | cons p rest ih =>
    by_cases hp : p.1 = k
    · simp [updateD, lookupD, hp, Ne.symm h, hp ▸ (Ne.symm h)]
    · by_cases hp' : p.1 = k'
      · simp [updateD, lookupD, hp, hp', h]
      · simp [updateD, lookupD, hp, hp', ih]

theorem keysD_updateD {κ α : Type} [DecidableEq κ] (m : List (κ × α)) (k : κ) (f : α → α) :
    keysD (updateD m k f) = keysD m := by
  induction m with
  | nil => simp [updateD]
  | cons p rest ih =>
    by_cases hp : p.1 = k <;> simp [updateD, keysD, hp] <;> simpa [keysD] using ih

theorem lookupD_append {κ α : Type} [DecidableEq κ] (m m' : List (κ × α)) (k : κ) :
    lookupD (m ++ m') k =
      (match lookupD m k with
       | some v => some v
       | none => lookupD m' k) := by
  induction m with
  | nil => simp [lookupD]
  | cons p rest ih =>
    by_cases hp : p.1 = k <;> simp [lookupD, hp, ih]

theorem getAdj_appendEdge_self (m : List (Int × List Aresta)) (k : Int) (e : Aresta) :
    (lookupD (appendEdge m k e) k).getD [] = (lookupD m k).getD [] ++ [e] := by
  unfold appendEdge
  by_cases hk : k ∈ keysD m
  · rcases lookupD_isSome_of_mem hk with ⟨l, hl⟩
    simp [hk, lookupD_updateD_self, hl]
  · have hnone : lookupD m k = none := (lookupD_eq_none_iff m k).mpr hk
    simp [hk, lookupD_append, hnone, lookupD]

theorem lookupD_appendEdge_ne (m : List (Int × List Aresta)) (k : Int) (e : Aresta)
    {k' : Int} (h : k' ≠ k) : lookupD (appendEdge m k e) k' = lookupD m k' := by
  unfold appendEdge
  by_cases hk : k ∈ keysD m
  · simp [hk, lookupD_updateD_ne _ _ h]
  · rw [if_neg hk, lookupD_append]
    cases hv : lookupD m k' with
    | none => simp [lookupD, Ne.symm h]
    | some v => simp

theorem mem_pairsOf {m : List (Int × List Aresta)} {x : Int × Aresta} :
    x ∈ pairsOf m ↔ ∃ pr ∈ m, pr.1 = x.1 ∧ x.2 ∈ pr.2 := by
  constructor
  · intro hx
    simp only [pairsOf, List.mem_flatten, List.mem_map] at hx
    rcases hx with ⟨l, ⟨pr, hpr, rfl⟩, hxl⟩
    rcases List.mem_map.mp hxl with ⟨e, he, rfl⟩
    exact ⟨pr, hpr, rfl, he⟩
  · rintro ⟨pr, hpr, h1, h2⟩
    simp only [pairsOf, List.mem_flatten, List.mem_map]
    refine ⟨pr.2.map (fun e => (pr.1, e)), ⟨pr, hpr, rfl⟩, ?_⟩
    rcases x with ⟨a, e⟩
    cases h1
    exact List.mem_map.mpr ⟨e, h2, rfl⟩

theorem countP_pairsOf_updateD (m : List (Int × List Aresta)) (k : Int) (e : Aresta)
    (p : Int × Aresta → Bool) (hk : k ∈ keysD m) :
    (pairsOf (updateD m k (fun l => l ++ [e]))).countP p
      = (pairsOf m).countP p + (if p (k, e) then 1 else 0) := by
  induction m with
  | nil => simp [keysD] at hk
  | cons pr rest ih =>
    by_cases hp : pr.1 = k
    · subst hp
      simp only [updateD, if_pos rfl, pairsOf, List.map_cons, List.flatten_cons,
        List.countP_append, List.map_append, List.countP_map]
      simp [List.countP_cons, Function.comp]
      by_cases hpe : p (pr.1, e) <;> simp [hpe] <;> omega
    · have hk' : k ∈ keysD rest := by
        rcases List.mem_cons.mp hk with h | h
        · exact absurd h.symm hp
        · exact h
      simp only [updateD, if_neg hp, pairsOf, List.map_cons, List.flatten_cons,
        List.countP_append]
      have := ih hk'
      simp only [pairsOf] at this
      omega

theorem countP_pairsOf_appendEdge (m : List (Int × List Aresta)) (k : Int) (e : Aresta)
    (p : Int × Aresta → Bool) :
    (pairsOf (appendEdge m k e)).countP p
      = (pairsOf m).countP p + (if p (k, e) then 1 else 0) := by
  unfold appendEdge
  by_cases hk : k ∈ keysD m
  · simpa [hk] using countP_pairsOf_updateD m k e p hk
  · simp only [if_neg hk, pairsOf, List.map_append, List.flatten_append, List.countP_append]
    simp [List.countP_cons]

theorem wf_edge {g : Grafo} (hwf : WF g) {o : Int} {e : Aresta} (he : e ∈ getAdj g o) :
    e.origem = o ∧ e.destino ∈ keysD g.vertices := by
  unfold getAdj at he
  cases hl : lookupD g.adj o with
  | none => rw [hl] at he; simp at he
  | some lst =>
    rw [hl] at he
    simp at he
    have hmem := lookupD_mem hl
    exact hwf.2.2.2.2 (o, lst) hmem e he

theorem not_mem_keysD_eraseD {κ α : Type} [DecidableEq κ] (m : List (κ × α)) (k : κ) :
    k ∉ keysD (eraseD m k) := by
  intro h
  rcases List.mem_map.mp h with ⟨pr, hpr, hfst⟩
  have hf := (List.mem_filter.mp hpr).2
  simp at hf
  exact hf hfst

theorem mem_eraseD {κ α : Type} [DecidableEq κ] {m : List (κ × α)} {k : κ} {pr : κ × α}
    (h : pr ∈ eraseD m k) : pr ∈ m ∧ pr.1 ≠ k := by
  have := List.mem_filter.mp h
  simpa using this

theorem keysD_map_snd (m : List (Int × List Aresta)) (f : Int × List Aresta → List Aresta) :
    keysD (m.map (fun pr => (pr.1, f pr))) = keysD m := by
  induction m with
  | nil => rfl
  | cons pr rest ih =>
    simp only [keysD, List.map_cons] at ih ⊢
    rw [ih]


/-! ### Claim C3: add_edge failure condition and mirrored insertion -/

/-- Claim C3.  `adicionar_aresta` fails exactly when an endpoint is
absent or an identical (origin, destination, weight) edge is already
stored, a failure leaves the graph unchanged, and on an undirected
graph (kind 3) a success stores both the forward edge and the mirror
edge, so after the call the forward edge exists iff the mirror does. -/
theorem adicionar_aresta_spec (g : Grafo) (o d : Int) (p : Option String) (hwf : WF g) :
    ((adicionar_aresta g o d p).1 = false ↔
      (o ∉ keysD g.vertices ∨ d ∉ keysD g.vertices ∨ Aresta.mk o d p ∈ getAdj g o)) ∧
    ((adicionar_aresta g o d p).1 = false → (adicionar_aresta g o d p).2 = g) ∧
    (g.tipo = 3 → (adicionar_aresta g o d p).1 = true →
      (Aresta.mk o d p ∈ getAdj (adicionar_aresta g o d p).2 o ∧
       Aresta.mk d o p ∈ getAdj (adicionar_aresta g o d p).2 d)) := by
  have hany : ((getAdj g o).any (fun e => e.destino = d ∧ e.peso = p) = true)
      ↔ Aresta.mk o d p ∈ getAdj g o := by
    constructor
    · intro h
      rcases List.any_eq_true.mp h with ⟨e, he, hpe⟩
      rcases of_decide_eq_true hpe with ⟨hd, hp2⟩
      obtain ⟨ho, -⟩ := wf_edge hwf he
      have he2 : e = Aresta.mk o d p := by
        cases e
        simp_all
      rwa [he2] at he
    · intro h
      refine List.any_eq_true.mpr ⟨Aresta.mk o d p, h, ?_⟩
      simp
  by_cases h1 : o ∈ keysD g.vertices ∧ d ∈ keysD g.vertices
  case neg =>
    have hres : adicionar_aresta g o d p = (false, g) := by
      unfold adicionar_aresta
      rw [if_neg h1]
    rw [hres]
    refine ⟨?_, fun _ => rfl, fun _ habs => by simp at habs⟩
    simp only [true_iff]
    rcases not_and_or.mp h1 with h | h
    · exact Or.inl h
    · exact Or.inr (Or.inl h)
  case pos =>
    by_cases h2 : (getAdj g o).any (fun e => e.destino = d ∧ e.peso = p) = true
    · have hres : adicionar_aresta g o d p = (false, g) := by
        unfold adicionar_aresta
        rw [if_pos h1, if_pos h2]
      rw [hres]
      refine ⟨?_, fun _ => rfl, fun _ habs => by simp at habs⟩
      simp only [true_iff]
      exact Or.inr (Or.inr (hany.mp h2))
    · have hres : adicionar_aresta g o d p =
          (true,
            { g with
              adj :=
                if g.tipo = 3 ∧
                    ¬ (((lookupD (appendEdge g.adj o (Aresta.mk o d p)) d).getD []).any
                      (fun e => e.destino = o ∧ e.peso = p)) then
                  appendEdge (appendEdge g.adj o (Aresta.mk o d p)) d (Aresta.mk d o p)
                else appendEdge g.adj o (Aresta.mk o d p) }) := by
        unfold adicionar_aresta
        rw [if_pos h1, if_neg h2]
      refine ⟨?_, ?_, ?_⟩
      · rw [hres]
        constructor
        · intro habs
          simp at habs
        · rintro (h | h | h)
          · exact (h h1.1).elim
          · exact (h h1.2).elim
          · exact (h2 (hany.mpr h)).elim
      · rw [hres]
        intro habs
        simp at habs
      · intro h3 _
        by_cases hm : ((lookupD (appendEdge g.adj o (Aresta.mk o d p)) d).getD []).any
            (fun e => e.destino = o ∧ e.peso = p) = true
        · have hcond : ¬ (g.tipo = 3 ∧
              ¬ (((lookupD (appendEdge g.adj o (Aresta.mk o d p)) d).getD []).any
                (fun e => e.destino = o ∧ e.peso = p) = true)) := by
            intro hc
            exact hc.2 hm
          rw [hres]
          simp only [getAdj, if_neg hcond]
          constructor
          · rw [getAdj_appendEdge_self]
            exact List.mem_append_right _ (List.mem_singleton.mpr rfl)
          · rcases List.any_eq_true.mp hm with ⟨e, he, hpe⟩
            rcases of_decide_eq_true hpe with ⟨hdest, hpeso⟩
            have horig : e.origem = d := by
              by_cases hdo : d = o
              · subst hdo
                rw [getAdj_appendEdge_self] at he
                rcases List.mem_append.mp he with h | h
                · exact (wf_edge hwf h).1
                · simp at h
                  rw [h]
              · rw [lookupD_appendEdge_ne _ _ _ hdo] at he
                exact (wf_edge hwf he).1
            have he2 : e = Aresta.mk d o p := by
              cases e
              simp_all
            rwa [he2] at he
        · have hcond : g.tipo = 3 ∧
              ¬ (((lookupD (appendEdge g.adj o (Aresta.mk o d p)) d).getD []).any
                (fun e => e.destino = o ∧ e.peso = p) = true) := ⟨h3, hm⟩
          rw [hres]
          simp only [getAdj, if_pos hcond]
          constructor
          · by_cases hdo : o = d
            · subst hdo
              rw [getAdj_appendEdge_self, getAdj_appendEdge_self]
              exact List.mem_append_left _
                (List.mem_append_right _ (List.mem_singleton.mpr rfl))
            · rw [lookupD_appendEdge_ne _ _ _ hdo, getAdj_appendEdge_self]
              exact List.mem_append_right _ (List.mem_singleton.mpr rfl)
          · rw [getAdj_appendEdge_self]
            exact List.mem_append_right _ (List.mem_singleton.mpr rfl)

/-- Concrete application of `adicionar_aresta_spec`: inserting the edge
1-2 into the two-vertex undirected graph stores both directions. -/
theorem adicionar_aresta_spec_witness :
    WF doisVerts ∧
    (Aresta.mk 1 2 none ∈ getAdj (adicionar_aresta doisVerts 1 2 none).2 1 ∧
     Aresta.mk 2 1 none ∈ getAdj (adicionar_aresta doisVerts 1 2 none).2 2) :=
  ⟨by decide,
    (adicionar_aresta_spec doisVerts 1 2 none (by decide)).2.2 (by decide) (by decide)⟩

/-! ### Claim C4: remove_edge removes all weights and the mirror -/

/-- Claim C4.  After `remover_aresta g o d`, no stored edge from o to d
remains, whatever its weight, and on an undirected graph (kind 3) no
mirror edge from d to o remains either. -/
theorem remover_aresta_spec (g : Grafo) (o d : Int) (hwf : WF g) :
    (∀ e ∈ getAdj (remover_aresta g o d).2 o, e.destino ≠ d) ∧
    (g.tipo = 3 → ∀ e ∈ getAdj (remover_aresta g o d).2 d, e.destino ≠ o) := by
  by_cases ho : o ∈ keysD g.adj
  case neg =>
    have hres : remover_aresta g o d = (false, g) := by
      unfold remover_aresta
      rw [if_neg ho]
    rw [hres]
    constructor
    · intro e he
      have hnone : lookupD g.adj o = none := (lookupD_eq_none_iff _ _).mpr ho
      rw [getAdj, hnone] at he
      simp at he
    · intro _ e he hdest
      obtain ⟨-, hdv⟩ := wf_edge hwf he
      rw [hdest] at hdv
      exact ho (hwf.2.2.2.1 o hdv)
  case pos =>
    have hadj : (remover_aresta g o d).2.adj =
        (if g.tipo = 3 ∧
            d ∈ keysD (updateD g.adj o (fun l => l.filter (fun e => e.destino ≠ d))) then
          updateD (updateD g.adj o (fun l => l.filter (fun e => e.destino ≠ d))) d
            (fun l => l.filter (fun e => e.destino ≠ o))
        else updateD g.adj o (fun l => l.filter (fun e => e.destino ≠ d))) := by
      unfold remover_aresta
      rw [if_pos ho]
    by_cases hc : g.tipo = 3 ∧
        d ∈ keysD (updateD g.adj o (fun l => l.filter (fun e => e.destino ≠ d)))
    · rw [if_pos hc] at hadj
      constructor
      · intro e he
        rw [getAdj, hadj] at he
        by_cases hod : o = d
        · subst hod
          rw [lookupD_updateD_self, lookupD_updateD_self] at he
          cases hl : lookupD g.adj o with
          | none => rw [hl] at he; simp at he
          | some l =>
            rw [hl] at he
            simp only [Option.map_some', Option.getD_some] at he
            have := (List.mem_filter.mp (List.mem_filter.mp he).1).2
            exact of_decide_eq_true this
        · rw [lookupD_updateD_ne _ _ hod, lookupD_updateD_self] at he
          cases hl : lookupD g.adj o with
          | none => rw [hl] at he; simp at he
          | some l =>
            rw [hl] at he
            simp only [Option.map_some', Option.getD_some] at he
            have := (List.mem_filter.mp he).2
            exact of_decide_eq_true this
      · intro _ e he
        rw [getAdj, hadj, lookupD_updateD_self] at he
        cases hl : lookupD (updateD g.adj o (fun l => l.filter (fun e => e.destino ≠ d))) d with
        | none => rw [hl] at he; simp at he
        | some l =>
          rw [hl] at he
          simp only [Option.map_some', Option.getD_some] at he
          have := (List.mem_filter.mp he).2
          exact of_decide_eq_true this
    · rw [if_neg hc] at hadj
      constructor
      · intro e he
        rw [getAdj, hadj, lookupD_updateD_self] at he
        cases hl : lookupD g.adj o with
        | none => rw [hl] at he; simp at he
        | some l =>
          rw [hl] at he
          simp only [Option.map_some', Option.getD_some] at he
          have := (List.mem_filter.mp he).2
          exact of_decide_eq_true this
      · intro h3 e he
        have hd : d ∉ keysD (updateD g.adj o (fun l => l.filter (fun e => e.destino ≠ d))) := by
          intro hdk
          exact hc ⟨h3, hdk⟩
        rw [getAdj, hadj] at he
        have hnone : lookupD (updateD g.adj o (fun l => l.filter (fun e => e.destino ≠ d))) d
            = none := (lookupD_eq_none_iff _ _).mpr hd
        rw [hnone] at he
        simp at he

/-- Concrete application of `remover_aresta_spec`: after removing the
edge 1-2 from the mirrored two-vertex graph, the forward copy is gone. -/
theorem remover_aresta_spec_witness :
    Aresta.mk 1 2 none ∉ getAdj (remover_aresta par12 1 2).2 1 :=
  fun hmem => (remover_aresta_spec par12 1 2 (by decide)).1 _ hmem rfl

/-! ### Claim C9: vertex removal destroys incident edges irreversibly -/

/-- Claim C9.  Removing a present vertex and then re-adding it yields a
graph with no edge incident to that id in any role: not as adjacency
key, not as stored origin, not as destination. -/
theorem remover_readicionar_vertice (g : Grafo) (v : Int) (r : String) (mt : List String)
    (hwf : WF g) (hv : v ∈ keysD g.vertices) :
    ∀ pr ∈ allPairs (adicionar_vertice (remover_vertice g v).2 v r mt).2,
      pr.1 ≠ v ∧ pr.2.origem ≠ v ∧ pr.2.destino ≠ v := by
  have hg1 : (remover_vertice g v).2 =
      { g with
        vertices := eraseD g.vertices v
        adj := (eraseD g.adj v).map
          (fun pr => (pr.1, pr.2.filter (fun e => e.destino ≠ v))) } := by
    unfold remover_vertice
    rw [if_pos hv]
  have hv1 : v ∉ keysD (remover_vertice g v).2.vertices := by
    rw [hg1]
    exact not_mem_keysD_eraseD g.vertices v
  have hadj2 : (adicionar_vertice (remover_vertice g v).2 v r mt).2.adj =
      (remover_vertice g v).2.adj ++ [(v, [])] := by
    have hva : v ∉ keysD (remover_vertice g v).2.adj := by
      rw [hg1]
      simp only []
      rw [keysD_map_snd]
      exact not_mem_keysD_eraseD g.adj v
    unfold adicionar_vertice
    rw [if_neg hv1]
    simp only [if_neg hva]
  intro pr hpr
  rw [allPairs, hadj2] at hpr
  rcases mem_pairsOf.mp hpr with ⟨en, hen, hfst, hsnd⟩
  rcases List.mem_append.mp hen with hen1 | hen2
  · rw [hg1] at hen1
    simp only [List.mem_map] at hen1
    rcases hen1 with ⟨pr0, hpr0, hpr0eq⟩
    obtain ⟨hpr0mem, hpr0ne⟩ := mem_eraseD hpr0
    have hkey : en.1 = pr0.1 := by rw [← hpr0eq]
    have hset : en.2 = pr0.2.filter (fun e => e.destino ≠ v) := by rw [← hpr0eq]
    refine ⟨?_, ?_, ?_⟩
    · rw [← hfst, hkey]
      exact hpr0ne
    · have hmem0 : pr.2 ∈ pr0.2 := by
        have := hset ▸ hsnd
        exact (List.mem_filter.mp this).1
      have := (hwf.2.2.2.2 pr0 hpr0mem pr.2 hmem0).1
      rw [this]
      exact hpr0ne
    · have := hset ▸ hsnd
      exact of_decide_eq_true (List.mem_filter.mp this).2
  · simp at hen2
    rw [hen2] at hsnd
    simp at hsnd

/-- Concrete application of `remover_readicionar_vertice`: after
removing vertex 1 of the mirrored two-vertex graph and re-adding it,
the stored pair (1, edge 1-2) is gone. -/
theorem remover_readicionar_vertice_witness :
    (1, Aresta.mk 1 2 none) ∉
      allPairs (adicionar_vertice (remover_vertice par12 1).2 1 "v" []).2 :=
  fun hmem =>
    (remover_readicionar_vertice par12 1 "v" [] (by decide) (by decide) _ hmem).1 rfl

/-! ### Claim C10: undirected self-loops -/

/-- Claim C10.  On an undirected graph (kind 3), adding a self-loop
(u, u, w) that is not yet present succeeds, stores exactly one copy
(the mirror insertion is suppressed because the just-inserted edge
matches the mirror check), and changes no vertex degree: the strict
`origem < destino` comparison of `calcular_graus` never counts a
self-loop. -/
theorem laco_proprio_spec (g : Grafo) (u : Int) (w : Option String)
    (h3 : g.tipo = 3) (hu : u ∈ keysD g.vertices)
    (hnew : ∀ e ∈ getAdj g u, ¬(e.destino = u ∧ e.peso = w)) :
    (adicionar_aresta g u u w).1 = true ∧
    (getAdj (adicionar_aresta g u u w).2 u).count (Aresta.mk u u w) = 1 ∧
    ∀ x, calcular_graus (adicionar_aresta g u u w).2 x = calcular_graus g x := by
  have hany : ((getAdj g u).any (fun e => e.destino = u ∧ e.peso = w) = true) → False := by
    intro h
    rcases List.any_eq_true.mp h with ⟨e, he, hpe⟩
    exact hnew e he (of_decide_eq_true hpe)
  have hmirror : ((lookupD (appendEdge g.adj u (Aresta.mk u u w)) u).getD []).any
      (fun e => e.destino = u ∧ e.peso = w) = true := by
    refine List.any_eq_true.mpr ⟨Aresta.mk u u w, ?_, by simp⟩
    rw [getAdj_appendEdge_self]
    exact List.mem_append_right _ (List.mem_singleton.mpr rfl)
  have hres : adicionar_aresta g u u w =
      (true, { g with adj := appendEdge g.adj u (Aresta.mk u u w) }) := by
    have hcond : ¬(g.tipo = 3 ∧
        ¬(((lookupD (appendEdge g.adj u (Aresta.mk u u w)) u).getD []).any
          (fun e => e.destino = u ∧ e.peso = w) = true)) :=
      fun hc => hc.2 hmirror
    unfold adicionar_aresta
    rw [if_pos ⟨hu, hu⟩, if_neg hany]
    simp only [if_neg hcond]
  refine ⟨by rw [hres], ?_, ?_⟩
  · rw [hres]
    show ((lookupD (appendEdge g.adj u (Aresta.mk u u w)) u).getD []).count _ = 1
    rw [getAdj_appendEdge_self, List.count_append]
    have hzero : (getAdj g u).count (Aresta.mk u u w) = 0 := by
      rw [List.count_eq_zero]
      intro hmem
      exact hnew _ hmem ⟨rfl, rfl⟩
    rw [getAdj] at hzero
    rw [hzero]
    simp
  · intro x
    rw [hres]
    unfold calcular_graus
    by_cases hx : x ∈ keysD g.vertices
    · rw [if_pos hx, if_pos hx]
      show (pairsOf (appendEdge g.adj u (Aresta.mk u u w))).countP _ = _
      rw [countP_pairsOf_appendEdge]
      have : grausPred g.tipo x (u, Aresta.mk u u w) = false := by
        rw [h3]
        unfold grausPred
        simp
      rw [this]
      simp [allPairs]
    · rw [if_neg hx, if_neg hx]

/-- Concrete application of `laco_proprio_spec`: adding the self-loop
(1, 1) to the mirrored two-vertex graph stores one copy and leaves the
degree of vertex 1 unchanged. -/
theorem laco_proprio_spec_witness :
    (adicionar_aresta par12 1 1 none).1 = true ∧
    (getAdj (adicionar_aresta par12 1 1 none).2 1).count (Aresta.mk 1 1 none) = 1 ∧
    calcular_graus (adicionar_aresta par12 1 1 none).2 1 = calcular_graus par12 1 :=
  ⟨(laco_proprio_spec par12 1 none rfl (by decide) (by decide)).1,
   (laco_proprio_spec par12 1 none rfl (by decide) (by decide)).2.1,
   (laco_proprio_spec par12 1 none rfl (by decide) (by decide)).2.2 1⟩

/-! ### Claim C5: each stored mirrored pair contributes one degree unit
per endpoint -/

theorem pairsOf_map_filter (m : List (Int × List Aresta)) (q : Int → Aresta → Bool) :
    pairsOf (m.map (fun pr => (pr.1, pr.2.filter (q pr.1))))
      = (pairsOf m).filter (fun x => q x.1 x.2) := by
  induction m with
  | nil => rfl
  | cons pr rest ih =>
    simp only [pairsOf, List.map_cons, List.flatten_cons, List.filter_append] at ih ⊢
    rw [List.filter_map, ih]
    rfl

theorem countP_split {α : Type} (p q : α → Bool) (l : List α) :
    l.countP p = l.countP (fun a => p a && q a) + l.countP (fun a => p a && !q a) := by
  induction l with
  | nil => simp
  | cons h t ih =>
    simp only [List.countP_cons, ih]
    by_cases hp : p h <;> by_cases hq : q h <;> simp [hp, hq] <;> omega

theorem countP_or_pair {α : Type} [DecidableEq α] (p : α → Bool) (A B : α) (hAB : A ≠ B)
    (l : List α) :
    l.countP (fun a => p a && decide (a = A ∨ a = B))
      = (if p A = true then l.countP (fun a => a = A) else 0)
        + (if p B = true then l.countP (fun a => a = B) else 0) := by
  induction l with
  | nil => simp
  | cons h t ih =>
    simp only [List.countP_cons, ih]
    by_cases hA : h = A
    · subst hA
      have hB : ¬(h = B) := hAB
      by_cases hp : p h <;> simp [hp, hB] <;> omega
    · by_cases hB : h = B
      · subst hB
        by_cases hp : p h <;> simp [hp, hA] <;> omega
      · simp [hA, hB]

theorem allPairs_eraseMirrorPair (g : Grafo) (u v : Int) (w : Option String) :
    allPairs (eraseMirrorPair g u v w)
      = (allPairs g).filter (fun x =>
          decide (¬((x.1 = u ∧ x.2 = Aresta.mk u v w) ∨
                    (x.1 = v ∧ x.2 = Aresta.mk v u w)))) :=
  pairsOf_map_filter g.adj
    (fun k e => decide (¬((k = u ∧ e = Aresta.mk u v w) ∨ (k = v ∧ e = Aresta.mk v u w))))

/-- Claim C5.  On an undirected graph (kind 3), a stored mirrored pair —
the copy (u, v, w) under u and the copy (v, u, w) under v, with u < v,
each stored exactly once — contributes exactly 1 to the computed degree
of u and exactly 1 to the degree of v, never 2, and nothing to any
other vertex: removing the pair lowers those two degrees by one each. -/
theorem calcular_graus_mirror_pair (g : Grafo) (u v : Int) (w : Option String)
    (h3 : g.tipo = 3) (huv : u < v)
    (hu : u ∈ keysD g.vertices) (hv : v ∈ keysD g.vertices)
    (hcu : (allPairs g).countP (fun pr => pr = (u, Aresta.mk u v w)) = 1)
    (hcv : (allPairs g).countP (fun pr => pr = (v, Aresta.mk v u w)) = 1) :
    calcular_graus g u = calcular_graus (eraseMirrorPair g u v w) u + 1 ∧
    calcular_graus g v = calcular_graus (eraseMirrorPair g u v w) v + 1 ∧
    ∀ x, x ≠ u → x ≠ v → calcular_graus (eraseMirrorPair g u v w) x = calcular_graus g x := by
  have hA : (u, Aresta.mk u v w) ≠ (v, Aresta.mk v u w) := by
    intro h
    rw [Prod.ext_iff] at h
    exact absurd h.1 (ne_of_lt huv)
  have hkeys : keysD (eraseMirrorPair g u v w).vertices = keysD g.vertices := rfl
  have htipo : (eraseMirrorPair g u v w).tipo = g.tipo := rfl
  have key : ∀ x, (allPairs g).countP (grausPred g.tipo x)
      = (allPairs (eraseMirrorPair g u v w)).countP (grausPred g.tipo x)
        + (if grausPred g.tipo x (u, Aresta.mk u v w) = true then 1 else 0) := by
    intro x
    rw [allPairs_eraseMirrorPair, List.countP_filter]
    have hsplit := countP_split (grausPred g.tipo x)
      (fun a : Int × Aresta =>
        decide (¬((a.1 = u ∧ a.2 = Aresta.mk u v w) ∨ (a.1 = v ∧ a.2 = Aresta.mk v u w))))
      (allPairs g)
    rw [hsplit]
    have hcongr : (allPairs g).countP
        (fun a => grausPred g.tipo x a &&
          !(decide (¬((a.1 = u ∧ a.2 = Aresta.mk u v w) ∨ (a.1 = v ∧ a.2 = Aresta.mk v u w)))))
        = (allPairs g).countP
        (fun a => grausPred g.tipo x a &&
          decide (a = (u, Aresta.mk u v w) ∨ a = (v, Aresta.mk v u w))) := by
      apply List.countP_congr
      intro a _
      rcases a with ⟨k, e⟩
      by_cases h1 : (k, e) = (u, Aresta.mk u v w)
      · rw [Prod.ext_iff] at h1
        simp [h1.1, h1.2]
      · by_cases h2 : (k, e) = (v, Aresta.mk v u w)
        · rw [Prod.ext_iff] at h2
          simp [h2.1, h2.2]
        · have h1' : ¬(k = u ∧ e = Aresta.mk u v w) := by
            intro hc
            exact h1 (Prod.ext_iff.mpr ⟨hc.1, hc.2⟩)
          have h2' : ¬(k = v ∧ e = Aresta.mk v u w) := by
            intro hc
            exact h2 (Prod.ext_iff.mpr ⟨hc.1, hc.2⟩)
          simp [h1', h2', h1, h2]
    rw [hcongr, countP_or_pair _ _ _ hA, hcu, hcv]
    have hpB : grausPred g.tipo v (v, Aresta.mk v u w) = false ∨ True := Or.inr trivial
    have hBfalse : ∀ y, grausPred g.tipo y (v, Aresta.mk v u w) = false := by
      intro y
      rw [h3]
      unfold grausPred
      simp only [if_pos rfl]
      have : ¬(v < (Aresta.mk v u w).destino) := by
        show ¬(v < u)
        exact not_lt.mpr (le_of_lt huv)
      simp [this]
    rw [hBfalse x]
    simp
  have hgate : ∀ x, calcular_graus g x
      = (if x ∈ keysD g.vertices then (allPairs g).countP (grausPred g.tipo x) else 0) := by
    intro x
    rfl
  have hgate2 : ∀ x, calcular_graus (eraseMirrorPair g u v w) x
      = (if x ∈ keysD g.vertices
          then (allPairs (eraseMirrorPair g u v w)).countP (grausPred g.tipo x) else 0) := by
    intro x
    rfl
  refine ⟨?_, ?_, ?_⟩
  · rw [hgate u, hgate2 u, if_pos hu, if_pos hu, key u]
    have : grausPred g.tipo u (u, Aresta.mk u v w) = true := by
      rw [h3]
      unfold grausPred
      simp [huv]
    rw [this]
    simp
  · rw [hgate v, hgate2 v, if_pos hv, if_pos hv, key v]
    have : grausPred g.tipo v (u, Aresta.mk u v w) = true := by
      rw [h3]
      unfold grausPred
      simp [huv]
    rw [this]
    simp
  · intro x hxu hxv
    rw [hgate x, hgate2 x]
    by_cases hx : x ∈ keysD g.vertices
    · rw [if_pos hx, if_pos hx, key x]
      have : grausPred g.tipo x (u, Aresta.mk u v w) = false := by
        rw [h3]
        unfold grausPred
        simp only [if_pos rfl]
        have h1 : ¬(u = x) := fun h => hxu h.symm
        have h2 : ¬((Aresta.mk u v w).destino = x) := fun h => hxv h.symm
        simp [h1, h2]
      rw [this]
      simp
    · rw [if_neg hx, if_neg hx]

/-- Concrete application of `calcular_graus_mirror_pair` on the
two-vertex mirrored graph: the pair 1-2 accounts for exactly one degree
unit at each endpoint. -/
theorem calcular_graus_mirror_pair_witness :
    calcular_graus par12 1 = calcular_graus (eraseMirrorPair par12 1 2 none) 1 + 1 ∧
    calcular_graus par12 2 = calcular_graus (eraseMirrorPair par12 1 2 none) 2 + 1 :=
  ⟨(calcular_graus_mirror_pair par12 1 2 none rfl (by decide) (by decide) (by decide)
      (by decide) (by decide)).1,
   (calcular_graus_mirror_pair par12 1 2 none rfl (by decide) (by decide) (by decide)
      (by decide) (by decide)).2.1⟩

/-! ### Kosaraju pass 1: invariants of the fuelled depth-first search -/

theorem dfs1_succ_eq (g : Grafo) (fuel : Nat) (u : Int) (st : List Int × List Int) :
    dfs1 g (fuel + 1) u st =
      (((getAdj g u).foldl (fun acc e => if e.destino ∈ acc.1 then acc
          else dfs1 g fuel e.destino acc) (u :: st.1, st.2)).1,
       ((getAdj g u).foldl (fun acc e => if e.destino ∈ acc.1 then acc
          else dfs1 g fuel e.destino acc) (u :: st.1, st.2)).2 ++ [u]) := rfl

theorem dfs1_mono (g : Grafo) : ∀ fuel : Nat,
    (∀ u st, st.1 ⊆ (dfs1 g fuel u st).1 ∧ ∃ t, (dfs1 g fuel u st).2 = st.2 ++ t) ∧
    (∀ (l : List Aresta) (st : List Int × List Int),
      st.1 ⊆ (l.foldl (fun acc e => if e.destino ∈ acc.1 then acc
        else dfs1 g fuel e.destino acc) st).1 ∧
      ∃ t, (l.foldl (fun acc e => if e.destino ∈ acc.1 then acc
        else dfs1 g fuel e.destino acc) st).2 = st.2 ++ t) := by
  intro fuel
  induction fuel with
  | zero =>
    have h1 : ∀ u st, st.1 ⊆ (dfs1 g 0 u st).1 ∧ ∃ t, (dfs1 g 0 u st).2 = st.2 ++ t := by
      intro u st
      exact ⟨fun x hx => hx, [], by simp [dfs1]⟩
    refine ⟨h1, ?_⟩
    intro l
    induction l with
    | nil => intro st; exact ⟨fun x hx => hx, [], by simp⟩
    | cons e rest ih =>
      intro st
      have hid : (if e.destino ∈ st.1 then st else dfs1 g 0 e.destino st) = st := by
        by_cases h : e.destino ∈ st.1 <;> simp [h, dfs1]
      rw [List.foldl_cons, hid]
      exact ih st
  | succ fuel ihf =>
    have h1 : ∀ u st, st.1 ⊆ (dfs1 g (fuel + 1) u st).1 ∧
        ∃ t, (dfs1 g (fuel + 1) u st).2 = st.2 ++ t := by
      intro u st
      rw [dfs1_succ_eq]
      rcases ihf.2 (getAdj g u) (u :: st.1, st.2) with ⟨hsub, t, ht⟩
      refine ⟨fun x hx => hsub (List.mem_cons_of_mem u hx), t ++ [u], ?_⟩
      simp only [ht, List.append_assoc]
    refine ⟨h1, ?_⟩
    intro l
    induction l with
    | nil => intro st; exact ⟨fun x hx => hx, [], by simp⟩
    | cons e rest ih =>
      intro st
      rw [List.foldl_cons]
      by_cases h : e.destino ∈ st.1
      · rw [if_pos h]
        exact ih st
      · rw [if_neg h]
        rcases h1 e.destino st with ⟨hsub1, t1, ht1⟩
        rcases ih (dfs1 g (fuel + 1) e.destino st) with ⟨hsub2, t2, ht2⟩
        exact ⟨fun x hx => hsub2 (hsub1 hx), t1 ++ t2, by rw [ht2, ht1, List.append_assoc]⟩

theorem dfs1_inv (g : Grafo) : ∀ fuel : Nat,
    (∀ u st (S : Int → Prop), (∀ x, x ∈ st.1 ↔ (x ∈ st.2 ∨ S x)) →
      ∀ x, x ∈ (dfs1 g fuel u st).1 ↔ (x ∈ (dfs1 g fuel u st).2 ∨ S x)) ∧
    (∀ (l : List Aresta) (st : List Int × List Int) (S : Int → Prop),
      (∀ x, x ∈ st.1 ↔ (x ∈ st.2 ∨ S x)) →
      ∀ x, x ∈ (l.foldl (fun acc e => if e.destino ∈ acc.1 then acc
        else dfs1 g fuel e.destino acc) st).1 ↔
        (x ∈ (l.foldl (fun acc e => if e.destino ∈ acc.1 then acc
          else dfs1 g fuel e.destino acc) st).2 ∨ S x)) := by
  intro fuel
  induction fuel with
  | zero =>
    have h1 : ∀ u st (S : Int → Prop), (∀ x, x ∈ st.1 ↔ (x ∈ st.2 ∨ S x)) →
        ∀ x, x ∈ (dfs1 g 0 u st).1 ↔ (x ∈ (dfs1 g 0 u st).2 ∨ S x) := by
      intro u st S h x
      exact h x
    refine ⟨h1, ?_⟩
    intro l
    induction l with
    | nil => intro st S h x; exact h x
    | cons e rest ih =>
      intro st S h x
      rw [List.foldl_cons]
      have hid : (if e.destino ∈ st.1 then st else dfs1 g 0 e.destino st) = st := by
        by_cases hm : e.destino ∈ st.1 <;> simp [hm, dfs1]
      rw [hid]
      exact ih st S h x
  | succ fuel ihf =>
    have h1 : ∀ u st (S : Int → Prop), (∀ x, x ∈ st.1 ↔ (x ∈ st.2 ∨ S x)) →
        ∀ x, x ∈ (dfs1 g (fuel + 1) u st).1 ↔ (x ∈ (dfs1 g (fuel + 1) u st).2 ∨ S x) := by
      intro u st S h x
      rw [dfs1_succ_eq]
      have hbase : ∀ y, y ∈ u :: st.1 ↔ (y ∈ st.2 ∨ (fun z => S z ∨ z = u) y) := by
        intro y
        rw [List.mem_cons]
        rcases h y with hy
        constructor
        · rintro (rfl | hy1)
          · exact Or.inr (Or.inr rfl)
          · rcases hy.mp hy1 with h2 | h2
            · exact Or.inl h2
            · exact Or.inr (Or.inl h2)
        · rintro (h2 | h2 | h2)
          · exact Or.inr (hy.mpr (Or.inl h2))
          · exact Or.inr (hy.mpr (Or.inr h2))
          · exact Or.inl h2
      have happ := ihf.2 (getAdj g u) (u :: st.1, st.2) (fun z => S z ∨ z = u) hbase x
      simp only [List.mem_append, List.mem_singleton]
      constructor
      · intro hx
        rcases happ.mp hx with h2 | h2 | h2
        · exact Or.inl (Or.inl h2)
        · exact Or.inr h2
        · exact Or.inl (Or.inr h2)
      · rintro ((h2 | h2) | h2)
        · exact happ.mpr (Or.inl h2)
        · exact happ.mpr (Or.inr (Or.inr h2))
        · exact happ.mpr (Or.inr (Or.inl h2))
    refine ⟨h1, ?_⟩
    intro l
    induction l with
    | nil => intro st S h x; exact h x
    | cons e rest ih =>
      intro st S h x
      rw [List.foldl_cons]
      by_cases hm : e.destino ∈ st.1
      · rw [if_pos hm]
        exact ih st S h x
      · rw [if_neg hm]
        exact ih (dfs1 g (fuel + 1) e.destino st) S (h1 e.destino st S h) x

theorem getAdj_dest {g : Grafo} {K : Int → Prop}
    (hK : ∀ pr ∈ g.adj, ∀ e ∈ pr.2, K e.destino) (u : Int) :
    ∀ e ∈ getAdj g u, K e.destino := by
  intro e he
  unfold getAdj at he
  cases hl : lookupD g.adj u with
  | none => rw [hl] at he; simp at he
  | some lst =>
    rw [hl] at he
    simp at he
    exact hK (u, lst) (lookupD_mem hl) e he

theorem dfs1_bound (g : Grafo) (K : Int → Prop)
    (hK : ∀ pr ∈ g.adj, ∀ e ∈ pr.2, K e.destino) : ∀ fuel : Nat,
    (∀ u st, K u → (∀ x ∈ st.1, K x) → ∀ x ∈ (dfs1 g fuel u st).1, K x) ∧
    (∀ (l : List Aresta) (st : List Int × List Int), (∀ e ∈ l, K e.destino) →
      (∀ x ∈ st.1, K x) →
      ∀ x ∈ (l.foldl (fun acc e => if e.destino ∈ acc.1 then acc
        else dfs1 g fuel e.destino acc) st).1, K x) := by
  intro fuel
  induction fuel with
  | zero =>
    have h1 : ∀ u st, K u → (∀ x ∈ st.1, K x) → ∀ x ∈ (dfs1 g 0 u st).1, K x := by
      intro u st _ hst
      exact hst
    refine ⟨h1, ?_⟩
    intro l
    induction l with
    | nil => intro st _ hst; exact hst
    | cons e rest ih =>
      intro st hl hst
      rw [List.foldl_cons]
      have hid : (if e.destino ∈ st.1 then st else dfs1 g 0 e.destino st) = st := by
        by_cases hm : e.destino ∈ st.1 <;> simp [hm, dfs1]
      rw [hid]
      exact ih st (fun e2 he2 => hl e2 (List.mem_cons_of_mem e he2)) hst
  | succ fuel ihf =>
    have h1 : ∀ u st, K u → (∀ x ∈ st.1, K x) → ∀ x ∈ (dfs1 g (fuel + 1) u st).1, K x := by
      intro u st hu hst
      rw [dfs1_succ_eq]
      refine ihf.2 (getAdj g u) (u :: st.1, st.2) (getAdj_dest hK u) ?_
      intro x hx
      rcases List.mem_cons.mp hx with rfl | hx2
      · exact hu
      · exact hst x hx2
    refine ⟨h1, ?_⟩
    intro l
    induction l with
    | nil => intro st _ hst; exact hst
    | cons e rest ih =>
      intro st hl hst
      rw [List.foldl_cons]
      by_cases hm : e.destino ∈ st.1
      · rw [if_pos hm]
        exact ih st (fun e2 he2 => hl e2 (List.mem_cons_of_mem e he2)) hst
      · rw [if_neg hm]
        exact ih (dfs1 g (fuel + 1) e.destino st)
          (fun e2 he2 => hl e2 (List.mem_cons_of_mem e he2))
          (h1 e.destino st (hl e (List.mem_cons_self e rest)) hst)

theorem dfs1_mark (g : Grafo) (fuel : Nat) (u : Int) (st : List Int × List Int) :
    u ∈ (dfs1 g (fuel + 1) u st).1 := by
  rw [dfs1_succ_eq]
  exact ((dfs1_mono g fuel).2 (getAdj g u) (u :: st.1, st.2)).1 (List.mem_cons_self u st.1)

theorem pass1_fold_mono (g : Grafo) (ks : List Int) :
    ∀ st : List Int × List Int,
      st.1 ⊆ (ks.foldl (fun st v => if v ∈ st.1 then st
        else dfs1 g (sccFuel g) v st) st).1 := by
  induction ks with
  | nil => intro st x hx; exact hx
  | cons v rest ih =>
    intro st x hx
    rw [List.foldl_cons]
    by_cases hm : v ∈ st.1
    · rw [if_pos hm]
      exact ih st hx
    · rw [if_neg hm]
      exact ih (dfs1 g (sccFuel g) v st)
        (((dfs1_mono g (sccFuel g)).1 v st).1 hx)

theorem pass1_fold_inv (g : Grafo) (ks : List Int) :
    ∀ st : List Int × List Int, (∀ x, x ∈ st.1 ↔ x ∈ st.2) →
      ∀ x, x ∈ (ks.foldl (fun st v => if v ∈ st.1 then st
          else dfs1 g (sccFuel g) v st) st).1 ↔
        x ∈ (ks.foldl (fun st v => if v ∈ st.1 then st
          else dfs1 g (sccFuel g) v st) st).2 := by
  induction ks with
  | nil => intro st h x; exact h x
  | cons v rest ih =>
    intro st h x
    rw [List.foldl_cons]
    by_cases hm : v ∈ st.1
    · rw [if_pos hm]
      exact ih st h x
    · rw [if_neg hm]
      refine ih (dfs1 g (sccFuel g) v st) ?_ x
      intro y
      have hbase : ∀ z, z ∈ st.1 ↔ (z ∈ st.2 ∨ False) := by
        intro z
        rw [h z]
        simp
      have := (dfs1_inv g (sccFuel g)).1 v st (fun _ => False) hbase y
      simpa using this

theorem pass1_fold_mem (g : Grafo) (ks : List Int) :
    ∀ st : List Int × List Int, ∀ v ∈ ks,
      v ∈ (ks.foldl (fun st v => if v ∈ st.1 then st
        else dfs1 g (sccFuel g) v st) st).1 := by
  induction ks with
  | nil => intro st v hv; simp at hv
  | cons v0 rest ih =>
    intro st v hv
    rw [List.foldl_cons]
    rcases List.mem_cons.mp hv with rfl | hv2
    · by_cases hm : v ∈ st.1
      · rw [if_pos hm]
        exact pass1_fold_mono g rest st hm
      · rw [if_neg hm]
        refine pass1_fold_mono g rest (dfs1 g (sccFuel g) v st) ?_
        exact dfs1_mark g (g.vertices.length + (allPairs g).length) v st
    · by_cases hm : v0 ∈ st.1
      · rw [if_pos hm]
        exact ih st v hv2
      · rw [if_neg hm]
        exact ih (dfs1 g (sccFuel g) v0 st) v hv2

theorem pass1_fold_bound (g : Grafo) (K : Int → Prop)
    (hK : ∀ pr ∈ g.adj, ∀ e ∈ pr.2, K e.destino) (ks : List Int) :
    ∀ st : List Int × List Int, (∀ v ∈ ks, K v) → (∀ x ∈ st.1, K x) →
      ∀ x ∈ (ks.foldl (fun st v => if v ∈ st.1 then st
        else dfs1 g (sccFuel g) v st) st).1, K x := by
  induction ks with
  | nil => intro st _ hst; exact hst
  | cons v rest ih =>
    intro st hks hst
    rw [List.foldl_cons]
    by_cases hm : v ∈ st.1
    · rw [if_pos hm]
      exact ih st (fun v2 hv2 => hks v2 (List.mem_cons_of_mem v hv2)) hst
    · rw [if_neg hm]
      exact ih (dfs1 g (sccFuel g) v st)
        (fun v2 hv2 => hks v2 (List.mem_cons_of_mem v hv2))
        ((dfs1_bound g K hK (sccFuel g)).1 v st (hks v (List.mem_cons_self v rest)) hst)

theorem passada1_mem_ordem (g : Grafo) :
    ∀ v ∈ keysD g.vertices, v ∈ (passada1 g).2 := by
  intro v hv
  have hmem := pass1_fold_mem g (keysD g.vertices) ([], []) v hv
  have hinv := pass1_fold_inv g (keysD g.vertices) ([], []) (by simp) v
  exact hinv.mp hmem

theorem passada1_ordem_bound (g : Grafo) (hwf : WF g) :
    ∀ x ∈ (passada1 g).2, x ∈ keysD g.vertices := by
  intro x hx
  have hinv := pass1_fold_inv g (keysD g.vertices) ([], []) (by simp) x
  have hvis : x ∈ (passada1 g).1 := hinv.mpr hx
  refine pass1_fold_bound g (fun y => y ∈ keysD g.vertices) ?_ (keysD g.vertices)
    ([], []) (fun v hv => hv) (by simp) x hvis
  intro pr hpr e he
  exact (hwf.2.2.2.2 pr hpr e he).2

/-! ### Kosaraju pass 2: invariants of the transposed depth-first search -/

theorem dfs2_succ_eq (g : Grafo) (fuel : Nat) (u : Int) (st : List Int × List Int) :
    dfs2 g (fuel + 1) u st =
      (trList g u).foldl (fun acc w => if w ∈ acc.1 then acc
        else dfs2 g fuel w acc) (u :: st.1, st.2 ++ [u]) := rfl

theorem dfs2_mono (g : Grafo) : ∀ fuel : Nat,
    (∀ u st, st.1 ⊆ (dfs2 g fuel u st).1 ∧ ∃ t, (dfs2 g fuel u st).2 = st.2 ++ t) ∧
    (∀ (l : List Int) (st : List Int × List Int),
      st.1 ⊆ (l.foldl (fun acc w => if w ∈ acc.1 then acc
        else dfs2 g fuel w acc) st).1 ∧
      ∃ t, (l.foldl (fun acc w => if w ∈ acc.1 then acc
        else dfs2 g fuel w acc) st).2 = st.2 ++ t) := by
  intro fuel
  induction fuel with
  | zero =>
    have h1 : ∀ u st, st.1 ⊆ (dfs2 g 0 u st).1 ∧ ∃ t, (dfs2 g 0 u st).2 = st.2 ++ t := by
      intro u st
      exact ⟨fun x hx => hx, [], by simp [dfs2]⟩
    refine ⟨h1, ?_⟩
    intro l
    induction l with
    | nil => intro st; exact ⟨fun x hx => hx, [], by simp⟩
    | cons w rest ih =>
      intro st
      have hid : (if w ∈ st.1 then st else dfs2 g 0 w st) = st := by
        by_cases h : w ∈ st.1 <;> simp [h, dfs2]
      rw [List.foldl_cons, hid]
      exact ih st
  | succ fuel ihf =>
    have h1 : ∀ u st, st.1 ⊆ (dfs2 g (fuel + 1) u st).1 ∧
        ∃ t, (dfs2 g (fuel + 1) u st).2 = st.2 ++ t := by
      intro u st
      rw [dfs2_succ_eq]
      rcases ihf.2 (trList g u) (u :: st.1, st.2 ++ [u]) with ⟨hsub, t, ht⟩
      refine ⟨fun x hx => hsub (List.mem_cons_of_mem u hx), [u] ++ t, ?_⟩
      rw [ht, List.append_assoc]
    refine ⟨h1, ?_⟩
    intro l
    induction l with
    | nil => intro st; exact ⟨fun x hx => hx, [], by simp⟩
    | cons w rest ih =>
      intro st
      rw [List.foldl_cons]
      by_cases h : w ∈ st.1
      · rw [if_pos h]
        exact ih st
      · rw [if_neg h]
        rcases h1 w st with ⟨hsub1, t1, ht1⟩
        rcases ih (dfs2 g (fuel + 1) w st) with ⟨hsub2, t2, ht2⟩
        exact ⟨fun x hx => hsub2 (hsub1 hx), t1 ++ t2, by rw [ht2, ht1, List.append_assoc]⟩

theorem dfs2_inv (g : Grafo) : ∀ fuel : Nat,
    (∀ u st (C : Int → Prop), (∀ x, x ∈ st.1 ↔ (C x ∨ x ∈ st.2)) →
      ∀ x, x ∈ (dfs2 g fuel u st).1 ↔ (C x ∨ x ∈ (dfs2 g fuel u st).2)) ∧
    (∀ (l : List Int) (st : List Int × List Int) (C : Int → Prop),
      (∀ x, x ∈ st.1 ↔ (C x ∨ x ∈ st.2)) →
      ∀ x, x ∈ (l.foldl (fun acc w => if w ∈ acc.1 then acc
        else dfs2 g fuel w acc) st).1 ↔
        (C x ∨ x ∈ (l.foldl (fun acc w => if w ∈ acc.1 then acc
          else dfs2 g fuel w acc) st).2)) := by
  intro fuel
  induction fuel with
  | zero =>
    have h1 : ∀ u st (C : Int → Prop), (∀ x, x ∈ st.1 ↔ (C x ∨ x ∈ st.2)) →
        ∀ x, x ∈ (dfs2 g 0 u st).1 ↔ (C x ∨ x ∈ (dfs2 g 0 u st).2) := by
      intro u st C h x
      exact h x
    refine ⟨h1, ?_⟩
    intro l
    induction l with
    | nil => intro st C h x; exact h x
    | cons w rest ih =>
      intro st C h x
      have hid : (if w ∈ st.1 then st else dfs2 g 0 w st) = st := by
        by_cases hm : w ∈ st.1 <;> simp [hm, dfs2]
      rw [List.foldl_cons, hid]
      exact ih st C h x
  | succ fuel ihf =>
    have h1 : ∀ u st (C : Int → Prop), (∀ x, x ∈ st.1 ↔ (C x ∨ x ∈ st.2)) →
        ∀ x, x ∈ (dfs2 g (fuel + 1) u st).1 ↔ (C x ∨ x ∈ (dfs2 g (fuel + 1) u st).2) := by
      intro u st C h x
      rw [dfs2_succ_eq]
      refine ihf.2 (trList g u) (u :: st.1, st.2 ++ [u]) C ?_ x
      intro y
      rw [List.mem_cons, List.mem_append, List.mem_singleton]
      rcases h y with hy
      constructor
      · rintro (rfl | hy1)
        · exact Or.inr (Or.inr rfl)
        · rcases hy.mp hy1 with h2 | h2
          · exact Or.inl h2
          · exact Or.inr (Or.inl h2)
      · rintro (h2 | h2 | h2)
        · exact Or.inr (hy.mpr (Or.inl h2))
        · exact Or.inr (hy.mpr (Or.inr h2))
        · exact Or.inl h2
    refine ⟨h1, ?_⟩
    intro l
    induction l with
    | nil => intro st C h x; exact h x
    | cons w rest ih =>
      intro st C h x
      rw [List.foldl_cons]
      by_cases hm : w ∈ st.1
      · rw [if_pos hm]
        exact ih st C h x
      · rw [if_neg hm]
        exact ih (dfs2 g (fuel + 1) w st) C (h1 w st C h) x

theorem dfs2_new (g : Grafo) : ∀ fuel : Nat,
    (∀ u st, ∀ x ∈ (dfs2 g fuel u st).2, x ∈ st.2 ∨ x = u ∨ x ∉ st.1) ∧
    (∀ (l : List Int) (st : List Int × List Int),
      ∀ x ∈ (l.foldl (fun acc w => if w ∈ acc.1 then acc
        else dfs2 g fuel w acc) st).2, x ∈ st.2 ∨ x ∉ st.1) := by
  intro fuel
  induction fuel with
  | zero =>
    have h1 : ∀ u st, ∀ x ∈ (dfs2 g 0 u st).2, x ∈ st.2 ∨ x = u ∨ x ∉ st.1 := by
      intro u st x hx
      exact Or.inl hx
    refine ⟨h1, ?_⟩
    intro l
    induction l with
    | nil => intro st x hx; exact Or.inl hx
    | cons w rest ih =>
      intro st x hx
      have hid : (if w ∈ st.1 then st else dfs2 g 0 w st) = st := by
        by_cases hm : w ∈ st.1 <;> simp [hm, dfs2]
      rw [List.foldl_cons, hid] at hx
      exact ih st x hx
  | succ fuel ihf =>
    have h1 : ∀ u st, ∀ x ∈ (dfs2 g (fuel + 1) u st).2, x ∈ st.2 ∨ x = u ∨ x ∉ st.1 := by
      intro u st x hx
      rw [dfs2_succ_eq] at hx
      rcases ihf.2 (trList g u) (u :: st.1, st.2 ++ [u]) x hx with h2 | h2
      · rcases List.mem_append.mp h2 with h3 | h3
        · exact Or.inl h3
        · exact Or.inr (Or.inl (List.mem_singleton.mp h3))
      · exact Or.inr (Or.inr (fun hc => h2 (List.mem_cons_of_mem u hc)))
    refine ⟨h1, ?_⟩
    intro l
    induction l with
    | nil => intro st x hx; exact Or.inl hx
    | cons w rest ih =>
      intro st x hx
      rw [List.foldl_cons] at hx
      by_cases hm : w ∈ st.1
      · rw [if_pos hm] at hx
        exact ih st x hx
      · rw [if_neg hm] at hx
        rcases ih (dfs2 g (fuel + 1) w st) x hx with h2 | h2
        · rcases h1 w st x h2 with h3 | h3 | h3
          · exact Or.inl h3
          · exact Or.inr (h3 ▸ hm)
          · exact Or.inr h3
        · exact Or.inr (fun hc => h2 (((dfs2_mono g (fuel + 1)).1 w st).1 hc))

theorem dfs2_nodup (g : Grafo) : ∀ fuel : Nat,
    (∀ u st, u ∉ st.1 → st.2.Nodup → (∀ x ∈ st.2, x ∈ st.1) →
      ((dfs2 g fuel u st).2.Nodup ∧
        ∀ x ∈ (dfs2 g fuel u st).2, x ∈ (dfs2 g fuel u st).1)) ∧
    (∀ (l : List Int) (st : List Int × List Int), st.2.Nodup → (∀ x ∈ st.2, x ∈ st.1) →
      ((l.foldl (fun acc w => if w ∈ acc.1 then acc
          else dfs2 g fuel w acc) st).2.Nodup ∧
        ∀ x ∈ (l.foldl (fun acc w => if w ∈ acc.1 then acc
          else dfs2 g fuel w acc) st).2,
          x ∈ (l.foldl (fun acc w => if w ∈ acc.1 then acc
            else dfs2 g fuel w acc) st).1)) := by
  intro fuel
  induction fuel with
  | zero =>
    have h1 : ∀ u st, u ∉ st.1 → st.2.Nodup → (∀ x ∈ st.2, x ∈ st.1) →
        ((dfs2 g 0 u st).2.Nodup ∧ ∀ x ∈ (dfs2 g 0 u st).2, x ∈ (dfs2 g 0 u st).1) := by
      intro u st _ hnd hsub
      exact ⟨hnd, hsub⟩
    refine ⟨h1, ?_⟩
    intro l
    induction l with
    | nil => intro st hnd hsub; exact ⟨hnd, hsub⟩
    | cons w rest ih =>
      intro st hnd hsub
      have hid : (if w ∈ st.1 then st else dfs2 g 0 w st) = st := by
        by_cases hm : w ∈ st.1 <;> simp [hm, dfs2]
      rw [List.foldl_cons, hid]
      exact ih st hnd hsub
  | succ fuel ihf =>
    have h1 : ∀ u st, u ∉ st.1 → st.2.Nodup → (∀ x ∈ st.2, x ∈ st.1) →
        ((dfs2 g (fuel + 1) u st).2.Nodup ∧
          ∀ x ∈ (dfs2 g (fuel + 1) u st).2, x ∈ (dfs2 g (fuel + 1) u st).1) := by
      intro u st hu hnd hsub
      rw [dfs2_succ_eq]
      refine ihf.2 (trList g u) (u :: st.1, st.2 ++ [u]) ?_ ?_
      · refine List.Nodup.append hnd (List.nodup_singleton u) ?_
        intro x hx hx2
        rw [List.mem_singleton] at hx2
        exact hu (hx2 ▸ hsub x hx)
      · intro x hx
        rcases List.mem_append.mp hx with h2 | h2
        · exact List.mem_cons_of_mem u (hsub x h2)
        · rw [List.mem_singleton] at h2
          exact h2 ▸ List.mem_cons_self u st.1
    refine ⟨h1, ?_⟩
    intro l
    induction l with
    | nil => intro st hnd hsub; exact ⟨hnd, hsub⟩
    | cons w rest ih =>
      intro st hnd hsub
      rw [List.foldl_cons]
      by_cases hm : w ∈ st.1
      · rw [if_pos hm]
        exact ih st hnd hsub
      · rw [if_neg hm]
        rcases h1 w st hm hnd hsub with ⟨hnd2, hsub2⟩
        exact ih (dfs2 g (fuel + 1) w st) hnd2 hsub2

theorem dfs2_bound (g : Grafo) (K : Int → Prop)
    (hK : ∀ u, ∀ w ∈ trList g u, K w) : ∀ fuel : Nat,
    (∀ u st, K u → (∀ x ∈ st.2, K x) → ∀ x ∈ (dfs2 g fuel u st).2, K x) ∧
    (∀ (l : List Int) (st : List Int × List Int), (∀ w ∈ l, K w) → (∀ x ∈ st.2, K x) →
      ∀ x ∈ (l.foldl (fun acc w => if w ∈ acc.1 then acc
        else dfs2 g fuel w acc) st).2, K x) := by
  intro fuel
  induction fuel with
  | zero =>
    have h1 : ∀ u st, K u → (∀ x ∈ st.2, K x) → ∀ x ∈ (dfs2 g 0 u st).2, K x := by
      intro u st _ hst
      exact hst
    refine ⟨h1, ?_⟩
    intro l
    induction l with
    | nil => intro st _ hst; exact hst
    | cons w rest ih =>
      intro st hl hst
      have hid : (if w ∈ st.1 then st else dfs2 g 0 w st) = st := by
        by_cases hm : w ∈ st.1 <;> simp [hm, dfs2]
      rw [List.foldl_cons, hid]
      exact ih st (fun w2 hw2 => hl w2 (List.mem_cons_of_mem w hw2)) hst
  | succ fuel ihf =>
    have h1 : ∀ u st, K u → (∀ x ∈ st.2, K x) → ∀ x ∈ (dfs2 g (fuel + 1) u st).2, K x := by
      intro u st hu hst
      rw [dfs2_succ_eq]
      refine ihf.2 (trList g u) (u :: st.1, st.2 ++ [u]) (hK u) ?_
      intro x hx
      rcases List.mem_append.mp hx with h2 | h2
      · exact hst x h2
      · exact (List.mem_singleton.mp h2) ▸ hu
    refine ⟨h1, ?_⟩
    intro l
    induction l with
    | nil => intro st _ hst; exact hst
    | cons w rest ih =>
      intro st hl hst
      rw [List.foldl_cons]
      by_cases hm : w ∈ st.1
      · rw [if_pos hm]
        exact ih st (fun w2 hw2 => hl w2 (List.mem_cons_of_mem w hw2)) hst
      · rw [if_neg hm]
        exact ih (dfs2 g (fuel + 1) w st)
          (fun w2 hw2 => hl w2 (List.mem_cons_of_mem w hw2))
          (h1 w st (hl w (List.mem_cons_self w rest)) hst)

theorem dfs2_mark (g : Grafo) (fuel : Nat) (u : Int) (st : List Int × List Int) :
    u ∈ (dfs2 g (fuel + 1) u st).1 := by
  rw [dfs2_succ_eq]
  exact ((dfs2_mono g fuel).2 (trList g u) (u :: st.1, st.2 ++ [u])).1
    (List.mem_cons_self u st.1)

theorem trList_bound (g : Grafo) (hwf : WF g) :
    ∀ u, ∀ w ∈ trList g u, w ∈ keysD g.vertices := by
  intro u w hw
  unfold trList at hw
  rcases List.mem_filterMap.mp hw with ⟨pr, hpr, hcond⟩
  by_cases hd : pr.2.destino = u
  · rw [if_pos hd] at hcond
    rcases mem_pairsOf.mp hpr with ⟨en, hen, hfst, -⟩
    have : pr.1 ∈ keysD g.adj := hfst ▸ List.mem_map.mpr ⟨en, hen, rfl⟩
    have := hwf.2.2.1 pr.1 this
    simp at hcond
    exact hcond ▸ this
  · rw [if_neg hd] at hcond
    simp at hcond

theorem scc_fold_props (g : Grafo) (hwf : WF g) : ∀ (vs : List Int),
    (∀ v ∈ vs, v ∈ keysD g.vertices) →
    ∀ acc : List Int × List (List Int),
      (∀ x, x ∈ acc.1 ↔ x ∈ acc.2.flatten) →
      acc.2.Pairwise (fun a b => ∀ x, x ∈ a → x ∉ b) →
      (∀ c ∈ acc.2, c.Nodup) →
      (∀ x ∈ acc.1, x ∈ keysD g.vertices) →
      ((∀ x, x ∈ (vs.foldl (fun acc v =>
          if v ∈ acc.1 then acc
          else ((dfs2 g (sccFuel g) v (acc.1, [])).1,
            acc.2 ++ [(dfs2 g (sccFuel g) v (acc.1, [])).2])) acc).1 ↔
        x ∈ (vs.foldl (fun acc v =>
          if v ∈ acc.1 then acc
          else ((dfs2 g (sccFuel g) v (acc.1, [])).1,
            acc.2 ++ [(dfs2 g (sccFuel g) v (acc.1, [])).2])) acc).2.flatten) ∧
      (vs.foldl (fun acc v =>
          if v ∈ acc.1 then acc
          else ((dfs2 g (sccFuel g) v (acc.1, [])).1,
            acc.2 ++ [(dfs2 g (sccFuel g) v (acc.1, [])).2])) acc).2.Pairwise
        (fun a b => ∀ x, x ∈ a → x ∉ b) ∧
      (∀ c ∈ (vs.foldl (fun acc v =>
          if v ∈ acc.1 then acc
          else ((dfs2 g (sccFuel g) v (acc.1, [])).1,
            acc.2 ++ [(dfs2 g (sccFuel g) v (acc.1, [])).2])) acc).2, c.Nodup) ∧
      (∀ x ∈ (vs.foldl (fun acc v =>
          if v ∈ acc.1 then acc
          else ((dfs2 g (sccFuel g) v (acc.1, [])).1,
            acc.2 ++ [(dfs2 g (sccFuel g) v (acc.1, [])).2])) acc).1,
        x ∈ keysD g.vertices) ∧
      (∀ v ∈ vs, v ∈ (vs.foldl (fun acc v =>
          if v ∈ acc.1 then acc
          else ((dfs2 g (sccFuel g) v (acc.1, [])).1,
            acc.2 ++ [(dfs2 g (sccFuel g) v (acc.1, [])).2])) acc).1) ∧
      acc.1 ⊆ (vs.foldl (fun acc v =>
          if v ∈ acc.1 then acc
          else ((dfs2 g (sccFuel g) v (acc.1, [])).1,
            acc.2 ++ [(dfs2 g (sccFuel g) v (acc.1, [])).2])) acc).1) := by
  intro vs
  induction vs with
  | nil =>
    intro _ acc hinv hpw hnd hK
    exact ⟨hinv, hpw, hnd, hK, by simp, fun x hx => hx⟩
  | cons v rest ih =>
    intro hvs acc hinv hpw hnd hK
    rw [List.foldl_cons]
    by_cases hm : v ∈ acc.1
    · rw [if_pos hm]
      rcases ih (fun v2 hv2 => hvs v2 (List.mem_cons_of_mem v hv2)) acc hinv hpw hnd hK
        with ⟨p1, p2, p3, p4, p5, p6⟩
      refine ⟨p1, p2, p3, p4, ?_, p6⟩
      intro v2 hv2
      rcases List.mem_cons.mp hv2 with rfl | hv3
      · exact p6 hm
      · exact p5 v2 hv3
    · rw [if_neg hm]
      have hCbase : ∀ x, x ∈ acc.1 ↔ ((fun y => y ∈ acc.2.flatten) x ∨ x ∈ ([] : List Int)) := by
        intro x
        rw [hinv x]
        simp
      have hinv2 := (dfs2_inv g (sccFuel g)).1 v (acc.1, []) (fun y => y ∈ acc.2.flatten) hCbase
      have hnodup2 := (dfs2_nodup g (sccFuel g)).1 v (acc.1, []) hm List.nodup_nil
        (by intro x hx; simp at hx)
      have hnew2 := (dfs2_new g (sccFuel g)).1 v (acc.1, [])
      have hbound2 := (dfs2_bound g (fun y => y ∈ keysD g.vertices) (trList_bound g hwf)
        (sccFuel g)).1 v (acc.1, []) (hvs v (List.mem_cons_self v rest))
        (by intro x hx; simp at hx)
      have hinv' : ∀ x, x ∈ (dfs2 g (sccFuel g) v (acc.1, [])).1 ↔
          x ∈ (acc.2 ++ [(dfs2 g (sccFuel g) v (acc.1, [])).2]).flatten := by
        intro x
        rw [List.flatten_append, List.mem_append]
        simp only [List.flatten, List.append_nil]
        exact (hinv2 x).trans (by simp [List.flatten])
      have hcross : ∀ a ∈ acc.2, ∀ x, x ∈ a → x ∉ (dfs2 g (sccFuel g) v (acc.1, [])).2 := by
        intro a ha x hxa hxr
        have hx1 : x ∈ acc.1 := (hinv x).mpr (List.mem_flatten.mpr ⟨a, ha, hxa⟩)
        rcases hnew2 x hxr with h2 | h2 | h2
        · simp at h2
        · exact hm (h2 ▸ hx1)
        · exact h2 hx1
      have hpw' : (acc.2 ++ [(dfs2 g (sccFuel g) v (acc.1, [])).2]).Pairwise
          (fun a b => ∀ x, x ∈ a → x ∉ b) := by
        rw [List.pairwise_append]
        refine ⟨hpw, List.pairwise_singleton _ _, ?_⟩
        intro a ha b hb
        rw [List.mem_singleton] at hb
        subst hb
        exact hcross a ha
      have hnd' : ∀ c ∈ acc.2 ++ [(dfs2 g (sccFuel g) v (acc.1, [])).2], c.Nodup := by
        intro c hc
        rcases List.mem_append.mp hc with h2 | h2
        · exact hnd c h2
        · rw [List.mem_singleton] at h2
          exact h2 ▸ hnodup2.1
      have hK' : ∀ x ∈ (dfs2 g (sccFuel g) v (acc.1, [])).1, x ∈ keysD g.vertices := by
        intro x hx
        rcases (hinv2 x).mp hx with h2 | h2
        · exact hK x ((hinv x).mpr h2)
        · exact hbound2 x h2
      rcases ih (fun v2 hv2 => hvs v2 (List.mem_cons_of_mem v hv2))
        ((dfs2 g (sccFuel g) v (acc.1, [])).1,
          acc.2 ++ [(dfs2 g (sccFuel g) v (acc.1, [])).2]) hinv' hpw' hnd' hK'
        with ⟨p1, p2, p3, p4, p5, p6⟩
      refine ⟨p1, p2, p3, p4, ?_, ?_⟩
      · intro v2 hv2
        rcases List.mem_cons.mp hv2 with rfl | hv3
        · refine p6 ?_
          exact dfs2_mark g (g.vertices.length + (allPairs g).length) v2 (acc.1, [])
        · exact p5 v2 hv3
      · intro x hx
        exact p6 (((dfs2_mono g (sccFuel g)).1 v (acc.1, [])).1 hx)

theorem scc_core (g : Grafo) (hwf : WF g) :
    (∀ v, v ∈ keysD g.vertices ↔ ∃ c ∈ componentes_fortemente_conexas g, v ∈ c) ∧
    (componentes_fortemente_conexas g).Pairwise (fun a b => ∀ x, x ∈ a → x ∉ b) ∧
    (∀ c ∈ componentes_fortemente_conexas g, c.Nodup) := by
  have hvs : ∀ v ∈ (passada1 g).2.reverse, v ∈ keysD g.vertices := by
    intro v hv
    exact passada1_ordem_bound g hwf v (List.mem_reverse.mp hv)
  obtain ⟨hinv, hpw, hnd, hK, hcov, -⟩ := scc_fold_props g hwf (passada1 g).2.reverse hvs
    ([], []) (by simp) (by simp) (by simp) (by simp)
  have hcomp_eq : componentes_fortemente_conexas g
      = ((passada1 g).2.reverse.foldl (fun acc v =>
          if v ∈ acc.1 then acc
          else ((dfs2 g (sccFuel g) v (acc.1, [])).1,
            acc.2 ++ [(dfs2 g (sccFuel g) v (acc.1, [])).2])) ([], [])).2 := rfl
  refine ⟨?_, hcomp_eq ▸ hpw, hcomp_eq ▸ hnd⟩
  intro v
  constructor
  · intro hv
    have h1 : v ∈ (passada1 g).2.reverse :=
      List.mem_reverse.mpr (passada1_mem_ordem g v hv)
    have h3 := (hinv v).mp (hcov v h1)
    rw [List.mem_flatten] at h3
    rcases h3 with ⟨c, hc, hvc⟩
    exact ⟨c, hcomp_eq ▸ hc, hvc⟩
  · rintro ⟨c, hc, hvc⟩
    have hfl : v ∈ ((passada1 g).2.reverse.foldl (fun acc v =>
        if v ∈ acc.1 then acc
        else ((dfs2 g (sccFuel g) v (acc.1, [])).1,
          acc.2 ++ [(dfs2 g (sccFuel g) v (acc.1, [])).2])) ([], [])).2.flatten :=
      List.mem_flatten.mpr ⟨c, hcomp_eq ▸ hc, hvc⟩
    exact hK v ((hinv v).mpr hfl)

/-! ### Claim C6: the SCC output is a partition of the vertex set -/

/-- Claim C6.  For every well-formed graph, the component sequence of
Kosaraju's algorithm is a partition of the vertex set: a vertex id
belongs to the graph iff it belongs to some returned component, and the
components are pairwise disjoint (so the component containing a vertex
is unique and the union of the components is exactly the vertex set). -/
theorem scc_particao (g : Grafo) (hwf : WF g) :
    (∀ v, v ∈ keysD g.vertices ↔ ∃ c ∈ componentes_fortemente_conexas g, v ∈ c) ∧
    (componentes_fortemente_conexas g).Pairwise (fun a b => ∀ x, x ∈ a → x ∉ b) :=
  ⟨(scc_core g hwf).1, (scc_core g hwf).2.1⟩

/-- Concrete application of `scc_particao`: vertex 1 of the directed
3-cycle lies in a returned component. -/
theorem scc_particao_witness :
    ∃ c ∈ componentes_fortemente_conexas ciclo3, (1 : Int) ∈ c :=
  ((scc_particao ciclo3 (by decide)).1 1).mp (by decide)

/-! ### Claim C8: condensation has no self-loops and deduplicated edges -/

theorem mem_updateD {κ α : Type} [DecidableEq κ] {m : List (κ × α)} {k : κ} {f : α → α}
    {pr : κ × α} (h : pr ∈ updateD m k f) :
    pr ∈ m ∨ ∃ v, (k, v) ∈ m ∧ pr = (k, f v) := by
  induction m with
  | nil => simp [updateD] at h
  | cons p rest ih =>
    by_cases hp : p.1 = k
    · rw [updateD, if_pos hp] at h
      rcases List.mem_cons.mp h with h2 | h2
      · right
        refine ⟨p.2, ?_, ?_⟩
        · rw [← hp]
          exact List.mem_cons_self p rest
        · rw [h2, hp]
      · exact Or.inl (List.mem_cons_of_mem p h2)
    · rw [updateD, if_neg hp] at h
      rcases List.mem_cons.mp h with h2 | h2
      · exact Or.inl (h2 ▸ List.mem_cons_self p rest)
      · rcases ih h2 with h3 | ⟨v2, hv2, hpr⟩
        · exact Or.inl (List.mem_cons_of_mem p h3)
        · exact Or.inr ⟨v2, List.mem_cons_of_mem p hv2, hpr⟩

theorem addToSet_keeps (P : Nat × List Nat → Prop)
    (hP : ∀ cu s, P (cu, s) → ∀ cv, cu ≠ cv → P (cu, if cv ∈ s then s else s ++ [cv]))
    (hPnew : ∀ cu cv, cu ≠ cv → P (cu, [cv]))
    (r : List (Nat × List Nat)) (cu cv : Nat) (hne : cu ≠ cv)
    (hr : ∀ pr ∈ r, P pr) : ∀ pr ∈ addToSet r cu cv, P pr := by
  intro pr hpr
  unfold addToSet at hpr
  by_cases hk : cu ∈ keysD r
  · rw [if_pos hk] at hpr
    rcases mem_updateD hpr with h2 | ⟨s, hs, hpr2⟩
    · exact hr pr h2
    · rw [hpr2]
      exact hP cu s (hr (cu, s) hs) cv hne
  · rw [if_neg hk] at hpr
    rcases List.mem_append.mp hpr with h2 | h2
    · exact hr pr h2
    · rw [List.mem_singleton] at h2
      rw [h2]
      exact hPnew cu cv hne

/-- Claim C8.  Every entry of the condensation dict built by
`grafo_reduzido` relates distinct components only — no component index
appears in its own successor set — and each successor set is
duplicate-free (the Python set semantics). -/
theorem grafo_reduzido_spec (g : Grafo) :
    ∀ pr ∈ (grafo_reduzido g).2, pr.1 ∉ pr.2 ∧ pr.2.Nodup := by
  have hstep : ∀ (l : List (Int × Aresta)) (r : List (Nat × List Nat)),
      (∀ pr ∈ r, pr.1 ∉ pr.2 ∧ pr.2.Nodup) →
      ∀ pr ∈ l.foldl (fun r pr =>
        if (lookupD (comp_de (componentes_fortemente_conexas g)) pr.1).getD 0 ≠
            (lookupD (comp_de (componentes_fortemente_conexas g)) pr.2.destino).getD 0 then
          addToSet r ((lookupD (comp_de (componentes_fortemente_conexas g)) pr.1).getD 0)
            ((lookupD (comp_de (componentes_fortemente_conexas g)) pr.2.destino).getD 0)
        else r) r, pr.1 ∉ pr.2 ∧ pr.2.Nodup := by
    intro l
    induction l with
    | nil => intro r hr; exact hr
    | cons e rest ih =>
      intro r hr
      rw [List.foldl_cons]
      by_cases hc : (lookupD (comp_de (componentes_fortemente_conexas g)) e.1).getD 0 ≠
          (lookupD (comp_de (componentes_fortemente_conexas g)) e.2.destino).getD 0
      · rw [if_pos hc]
        refine ih _ ?_
        refine addToSet_keeps (fun pr => pr.1 ∉ pr.2 ∧ pr.2.Nodup) ?_ ?_ r _ _ hc hr
        · intro cu s hPs cv hne
          by_cases hcv : cv ∈ s
          · simpa [hcv] using hPs
          · simp only [if_neg hcv]
            refine ⟨?_, ?_⟩
            · intro hmem
              rcases List.mem_append.mp hmem with h2 | h2
              · exact hPs.1 h2
              · rw [List.mem_singleton] at h2
                exact hne h2
            · refine List.Nodup.append hPs.2 (List.nodup_singleton cv) ?_
              intro x hx hx2
              rw [List.mem_singleton] at hx2
              exact hcv (hx2 ▸ hx)
        · intro cu cv hne
          refine ⟨?_, List.nodup_singleton cv⟩
          intro hmem
          rw [List.mem_singleton] at hmem
          exact hne hmem
      · rw [if_neg hc]
        exact ih r hr
  intro pr hpr
  exact hstep (allPairs g) [] (by simp) pr hpr

/-! ### Claim C7: the classifier decision chain -/

theorem scc_c3_equiv (g : Grafo) (hwf : WF g) :
    ((componentes_fortemente_conexas g).length = 1 ∧
      ((componentes_fortemente_conexas g).headD []).length = g.vertices.length) ↔
    (∃ c, componentes_fortemente_conexas g = [c] ∧ ∀ v ∈ keysD g.vertices, v ∈ c) := by
  constructor
  · rintro ⟨hlen, -⟩
    rcases List.length_eq_one.mp hlen with ⟨c, hc⟩
    refine ⟨c, hc, ?_⟩
    intro v hv
    rcases ((scc_core g hwf).1 v).mp hv with ⟨c2, hc2, hvc2⟩
    rw [hc, List.mem_singleton] at hc2
    exact hc2 ▸ hvc2
  · rintro ⟨c, hc, hcov⟩
    have hmc : c ∈ componentes_fortemente_conexas g := by
      rw [hc]
      exact List.mem_singleton.mpr rfl
    have hsub1 : c ⊆ keysD g.vertices := by
      intro x hx
      exact ((scc_core g hwf).1 x).mpr ⟨c, hmc, hx⟩
    have hnd_c : c.Nodup := (scc_core g hwf).2.2 c hmc
    have hlen_eq : c.length = (keysD g.vertices).length :=
      Nat.le_antisymm
        (List.Subperm.length_le (List.subperm_of_subset hnd_c hsub1))
        (List.Subperm.length_le (List.subperm_of_subset hwf.1 hcov))
    refine ⟨by rw [hc]; rfl, ?_⟩
    rw [hc]
    show c.length = g.vertices.length
    rw [hlen_eq]
    exact List.length_map g.vertices Prod.fst

theorem scc_any_singleton (g : Grafo) :
    ((componentes_fortemente_conexas g).any (fun c => c.length == 1) = true) ↔
    (∃ c ∈ componentes_fortemente_conexas g, c.length = 1) := by
  rw [List.any_eq_true]
  constructor
  · rintro ⟨c, hc, hlen⟩
    exact ⟨c, hc, by simpa using hlen⟩
  · rintro ⟨c, hc, hlen⟩
    exact ⟨c, hc, by simp [hlen]⟩

/-- Claim C7.  The classifier checks its four categories in order with
the first match winning: `C0` exactly when there are no vertices or no
edges; otherwise `C3` exactly when a single strongly connected
component holds every vertex; otherwise `C1` exactly when a singleton
component exists alongside more than one component; otherwise `C2`.
In particular the empty graph yields `C0` and the directed 3-cycle
yields `C3`. -/
theorem categoria_spec :
    (∀ g : Grafo, WF g →
      ((categoria_direcionado g = "C0" ↔ (g.vertices = [] ∨ lista_arestas g = [])) ∧
       (¬(g.vertices = [] ∨ lista_arestas g = []) →
         (categoria_direcionado g = "C3" ↔
           (∃ c, componentes_fortemente_conexas g = [c] ∧ ∀ v ∈ keysD g.vertices, v ∈ c))) ∧
       (¬(g.vertices = [] ∨ lista_arestas g = []) →
         ¬(∃ c, componentes_fortemente_conexas g = [c] ∧ ∀ v ∈ keysD g.vertices, v ∈ c) →
         (categoria_direcionado g = "C1" ↔
           ((∃ c ∈ componentes_fortemente_conexas g, c.length = 1) ∧
             1 < (componentes_fortemente_conexas g).length))) ∧
       (¬(g.vertices = [] ∨ lista_arestas g = []) →
         ¬(∃ c, componentes_fortemente_conexas g = [c] ∧ ∀ v ∈ keysD g.vertices, v ∈ c) →
         ¬((∃ c ∈ componentes_fortemente_conexas g, c.length = 1) ∧
             1 < (componentes_fortemente_conexas g).length) →
         categoria_direcionado g = "C2"))) ∧
    categoria_direcionado vazio = "C0" ∧
    categoria_direcionado ciclo3 = "C3" := by
  refine ⟨?_, by decide, by decide⟩
  intro g hwf
  by_cases hA : g.vertices = [] ∨ lista_arestas g = []
  · have hcat : categoria_direcionado g = "C0" := by
      unfold categoria_direcionado
      rcases hA with h | h
      · rw [if_pos h]
      · by_cases h0 : g.vertices = []
        · rw [if_pos h0]
        · rw [if_neg h0, if_pos h]
    exact ⟨by rw [hcat]; exact iff_of_true rfl hA, fun hnA => absurd hA hnA,
      fun hnA => absurd hA hnA, fun hnA => absurd hA hnA⟩
  · have hv0 : ¬(g.vertices = []) := fun h => hA (Or.inl h)
    have he0 : ¬(lista_arestas g = []) := fun h => hA (Or.inr h)
    have hcat : categoria_direcionado g =
        (if (componentes_fortemente_conexas g).length = 1 ∧
            ((componentes_fortemente_conexas g).headD []).length = g.vertices.length
          then "C3"
          else if ((componentes_fortemente_conexas g).any (fun c => c.length == 1)) ∧
              1 < (componentes_fortemente_conexas g).length
            then "C1" else "C2") := by
      unfold categoria_direcionado
      rw [if_neg hv0, if_neg he0]
    by_cases h3 : (componentes_fortemente_conexas g).length = 1 ∧
        ((componentes_fortemente_conexas g).headD []).length = g.vertices.length
    · rw [if_pos h3] at hcat
      refine ⟨?_, ?_, ?_, ?_⟩
      · rw [hcat]
        exact iff_of_false (by decide) hA
      · intro _
        rw [hcat]
        exact iff_of_true rfl ((scc_c3_equiv g hwf).mp h3)
      · intro _ hns
        exact absurd ((scc_c3_equiv g hwf).mp h3) hns
      · intro _ hns _
        exact absurd ((scc_c3_equiv g hwf).mp h3) hns
    · rw [if_neg h3] at hcat
      by_cases h1 : ((componentes_fortemente_conexas g).any (fun c => c.length == 1) = true) ∧
          1 < (componentes_fortemente_conexas g).length
      · rw [if_pos h1] at hcat
        refine ⟨?_, ?_, ?_, ?_⟩
        · rw [hcat]
          exact iff_of_false (by decide) hA
        · intro _
          rw [hcat]
          exact iff_of_false (by decide) (fun hsem => h3 ((scc_c3_equiv g hwf).mpr hsem))
        · intro _ _
          rw [hcat]
          exact iff_of_true rfl ⟨(scc_any_singleton g).mp h1.1, h1.2⟩
        · intro _ _ hn1
          exact absurd ⟨(scc_any_singleton g).mp h1.1, h1.2⟩ hn1
      · rw [if_neg h1] at hcat
        refine ⟨?_, ?_, ?_, ?_⟩
        · rw [hcat]
          exact iff_of_false (by decide) hA
        · intro _
          rw [hcat]
          exact iff_of_false (by decide) (fun hsem => h3 ((scc_c3_equiv g hwf).mpr hsem))
        · intro _ _
          rw [hcat]
          refine iff_of_false (by decide) ?_
          rintro ⟨hex, hlen⟩
          exact h1 ⟨(scc_any_singleton g).mpr hex, hlen⟩
        · intro _ _ _
          exact hcat

/-- Concrete application of `categoria_spec`: the two isolated vertices
with no edges classify as `C0`. -/
theorem categoria_spec_witness : categoria_direcionado doisVerts = "C0" :=
  (categoria_spec.1 doisVerts (by decide)).1.mpr (Or.inr rfl)

/-- Concrete application of `grafo_reduzido_spec`: the condensation of
the single-edge graph stores the entry (0, [1]), whose index is not in
its own successor set. -/
theorem grafo_reduzido_spec_witness :
    ((0 : Nat), [(1 : Nat)]) ∈ (grafo_reduzido seta12).2 ∧
    ((0 : Nat) ∉ [(1 : Nat)] ∧ ([(1 : Nat)] : List Nat).Nodup) :=
  ⟨by decide, grafo_reduzido_spec seta12 (0, [1]) (by decide)⟩
